import Mathlib

/-!
Verification of the bounded directory walker of `src/filesystem.c`
(`rcutils_calculate_directory_size_with_recursion`, its convenience wrapper
`rcutils_calculate_directory_size`, and the cleanup helper `free_dir_list`).

The walker is embedded shallowly (POSIX branch of the source):

* The operating system is an oracle `FS` supplying the collaborator calls the
  walker makes: `opendir`/`readdir` (`listDir`), `rcutils_is_directory`
  (`isDir`), `rcutils_is_file` (`isFile`) and `stat`'s size field
  (`statSize`).
* The caller-supplied allocator is modelled by a fault schedule
  `f : Nat → Bool` (whether the n-th allocation attempt of the process
  succeeds) together with an explicit memory state `MemState` that records
  the next fresh allocation id, the ids currently allocated and not yet
  released (`live`), and the exact sequence of `deallocate` calls
  (`deallocs`; `none` records a `deallocate(NULL)` call).
* The outer `do … while (dir_list)` loop of the C code can run forever on a
  pathological filesystem oracle, so it is embedded with explicit fuel; the
  inner `readdir` loop is structural recursion over the entry list.
* Two ghost logs instrument the walker for the statements about its internal
  behaviour: `pushed` records the depth of every worklist node pushed by the
  scan, and `skipped` records the allocation id of the path string built for
  every directory entry skipped by the depth test.  Neither log influences
  the computed size, the memory state, or the control flow.
-/

/-- State of the modelled allocator: `ctr` is the next fresh allocation id
(also the index into the fault schedule), `live` the ids allocated and not
yet deallocated, `deallocs` the log of every `deallocate` call made
(`none` = `deallocate(NULL)`). -/
structure MemState where
  ctr : Nat
  live : List Nat
  deallocs : List (Option Nat)
deriving DecidableEq, Repr

/-- `allocator.allocate`: consult the fault schedule at the current counter;
on success return a fresh id and mark it live. -/
def allocate (f : Nat → Bool) (m : MemState) : Option Nat × MemState :=
  if f m.ctr then
    (some m.ctr, ⟨m.ctr + 1, m.ctr :: m.live, m.deallocs⟩)
  else
    (none, ⟨m.ctr + 1, m.live, m.deallocs⟩)

/-- `allocator.deallocate`: log the call; a non-null pointer is removed from
the live set. -/
def deallocate (m : MemState) : Option Nat → MemState
  | none => ⟨m.ctr, m.live, m.deallocs ++ [none]⟩
  | some i => ⟨m.ctr, m.live.erase i, m.deallocs ++ [some i]⟩

/-- The filesystem oracle: the single-call OS collaborators used by the
walker.  `listDir p = none` models `opendir(p)` failing; `some names` is the
`readdir` sequence (which may contain `"."` and `".."`).  `statSize p = none`
models `stat` failing. -/
structure FS where
  listDir : String → Option (List String)
  isDir : String → Bool
  isFile : String → Bool
  statSize : String → Option Nat

def RCUTILS_PATH_DELIMITER : String := "/"

/-- `rcutils_join_path`: one owned-string allocation; the resulting string is
`left ++ "/" ++ right`.  A null allocator result yields NULL. -/
def rcutils_join_path (left_hand_path right_hand_path : String) (f : Nat → Bool)
    (m : MemState) : Option (Nat × String) × MemState :=
  match allocate f m with
  | (none, m1) => (none, m1)
  | (some i, m1) => (some (i, left_hand_path ++ RCUTILS_PATH_DELIMITER ++ right_hand_path), m1)

/-- `rcutils_strdup`: one owned-string allocation copying its input. -/
def rcutils_strdup (s : String) (f : Nat → Bool) (m : MemState) :
    Option (Nat × String) × MemState :=
  match allocate f m with
  | (none, m1) => (none, m1)
  | (some i, m1) => (some (i, s), m1)

/-- `rcutils_get_file_size`: 0 unless the path is a regular file; otherwise
`stat`'s size (0 if `stat` fails). -/
def rcutils_get_file_size (fs : FS) (file_path : String) : Nat :=
  if fs.isFile file_path then (fs.statSize file_path).getD 0 else 0

/-- One worklist node (`struct dir_list_t`): its own allocation id, its owned
path string (id and value; `none` models a NULL `path` pointer), and its
depth.  The `next` pointer is the tail of the enclosing list. -/
structure dir_list_t where
  nodeId : Nat
  path : Option (Nat × String)
  depth : Nat
deriving DecidableEq, Repr

/-- `free_dir_list`: walk the chain, releasing each node's path string and
then the node itself. -/
def free_dir_list (l : List dir_list_t) (m : MemState) : MemState :=
  match l with
  | [] => m
  | nd :: rest =>
    free_dir_list rest (deallocate (deallocate m (nd.path.map Prod.fst)) (some nd.nodeId))

/-- An entry name that is neither the self (`.`) nor the parent (`..`)
pseudo-entry. -/
def nondot (n : String) : Bool := !(n == "." || n == "..")

/-- Result of scanning the entries of the directory at the head of the
worklist: either the scan completed (`ok`) or it hit an error and the walker
must run the cleanup path (`fail`).  `tail` is the worklist after the head
(`dir_list->next`), in front of which discovered subdirectories have been
pushed. -/
inductive ScanResult where
  | ok (tail : List dir_list_t) (dir_size : Nat) (m : MemState)
      (pushed : List Nat) (skipped : List Nat)
  | fail (tail : List dir_list_t) (dir_size : Nat) (m : MemState)
      (pushed : List Nat) (skipped : List Nat)
deriving DecidableEq, Repr

/-- The inner `readdir` loop of the walker, scanning the entries of the
directory `dirPath` (the worklist head, at depth `depth`).  Mirrors lines
391-421 of `src/filesystem.c`: skip `.`/`..`; join the entry path (NULL →
`goto fail`); a directory within the depth bound is pushed in front of the
remaining worklist (node allocation failure → `goto fail`); a directory
beyond the bound is skipped (its path string is neither stored nor freed —
the ghost `skipped` log records its allocation id); anything else adds its
file size to the total and its path is released at once. -/
def scanEntries (fs : FS) (f : Nat → Bool) (max_deepth : Nat) (dirPath : String)
    (depth : Nat) :
    List String → List dir_list_t → Nat → MemState → List Nat → List Nat → ScanResult
  | [], tail, dir_size, m, pu, sk => ScanResult.ok tail dir_size m pu sk
  | name :: names, tail, dir_size, m, pu, sk =>
    if nondot name then
      match rcutils_join_path dirPath name f m with
      | (none, m1) => ScanResult.fail tail dir_size m1 pu sk
      | (some (pathId, file_path), m1) =>
        if fs.isDir file_path then
          if max_deepth = 0 ∨ depth + 1 ≤ max_deepth then
            match allocate f m1 with
            | (none, m2) => ScanResult.fail tail dir_size m2 pu sk
            | (some nid, m2) =>
              scanEntries fs f max_deepth dirPath depth names
                (⟨nid, some (pathId, file_path), depth + 1⟩ :: tail)
                dir_size m2 (pu ++ [depth + 1]) sk
          else
            scanEntries fs f max_deepth dirPath depth names tail dir_size m1
              pu (sk ++ [pathId])
        else
          scanEntries fs f max_deepth dirPath depth names tail
            (dir_size + rcutils_get_file_size fs file_path)
            (deallocate m1 (some pathId)) pu sk
    else
      scanEntries fs f max_deepth dirPath depth names tail dir_size m pu sk

/-- What a finished call of the walker yields: the returned total, the final
memory state, and the two ghost logs. -/
structure WalkOut where
  size : Nat
  mem : MemState
  pushed : List Nat
  skipped : List Nat
deriving DecidableEq, Repr

/-- The outer `do … while (dir_list)` loop of the walker (lines 380-431),
with explicit fuel (one unit per worklist pop); `none` = fuel exhausted.
Opening the head directory fails → free the whole worklist and return the
accumulated size; otherwise scan its entries, then release the head's path
and node and continue with the remaining worklist. -/
def walkLoop (fs : FS) (f : Nat → Bool) (max_deepth : Nat) :
    Nat → List dir_list_t → Nat → MemState → List Nat → List Nat → Option WalkOut
  | _, [], dir_size, m, pu, sk => some ⟨dir_size, m, pu, sk⟩
  | 0, _ :: _, _, _, _, _ => none
  | fuel + 1, hd :: rest, dir_size, m, pu, sk =>
    match hd.path with
    | none => some ⟨dir_size, free_dir_list (hd :: rest) m, pu, sk⟩
    | some (pathId, p) =>
      match fs.listDir p with
      | none => some ⟨dir_size, free_dir_list (hd :: rest) m, pu, sk⟩
      | some names =>
        match scanEntries fs f max_deepth p hd.depth names rest dir_size m pu sk with
        | ScanResult.fail tail size2 m2 pu2 sk2 =>
          some ⟨size2, free_dir_list (hd :: tail) m2, pu2, sk2⟩
        | ScanResult.ok tail size2 m2 pu2 sk2 =>
          walkLoop fs f max_deepth fuel tail size2
            (deallocate (deallocate m2 (some pathId)) (some hd.nodeId)) pu2 sk2

/-- `rcutils_calculate_directory_size_with_recursion` (POSIX branch):
allocate the root worklist node (failure → return 0 at once), duplicate the
root path (failure → `goto fail`, which frees the NULL path and the node),
then run the worklist loop starting from the root node at depth 1. -/
def rcutils_calculate_directory_size_with_recursion (fs : FS) (f : Nat → Bool)
    (directory_path : String) (max_deepth : Nat) (fuel : Nat) (m0 : MemState) :
    Option WalkOut :=
  match allocate f m0 with
  | (none, m1) => some ⟨0, m1, [], []⟩
  | (some nodeId, m1) =>
    match rcutils_strdup directory_path f m1 with
    | (none, m2) => some ⟨0, free_dir_list [⟨nodeId, none, 1⟩] m2, [], []⟩
    | (some (pathId, p), m2) =>
      walkLoop fs f max_deepth fuel [⟨nodeId, some (pathId, p), 1⟩] 0 m2 [] []

/-- `rcutils_calculate_directory_size`: return 0 unless the path is a
directory; otherwise delegate with `max_depth` fixed to 1. -/
def rcutils_calculate_directory_size (fs : FS) (f : Nat → Bool)
    (directory_path : String) (fuel : Nat) (m0 : MemState) : Option WalkOut :=
  if fs.isDir directory_path then
    rcutils_calculate_directory_size_with_recursion fs f directory_path 1 fuel m0
  else
    some ⟨0, m0, [], []⟩

/-- An allocator that never fails. -/
def allTrue : Nat → Bool := fun _ => true

/-- A fresh memory state: no allocation has happened yet. -/
def initMem : MemState := ⟨0, [], []⟩

/-- A concrete oracle: the directory `r` holds two regular files `a` (100
bytes) and `b` (50 bytes), listed together with the dot pseudo-entries. -/
def fsFlat : FS where
  listDir := fun p => if p = "r" then some [".", "..", "a", "b"] else none
  isDir := fun p => p = "r"
  isFile := fun p => p = "r/a" || p = "r/b"
  statSize := fun p => if p = "r/a" then some 100 else if p = "r/b" then some 50 else none


/-!
## Tree-shaped filesystems

For the functional claims the oracle is tied to an explicit finite tree: a
`coherent fs p t` filesystem answers the walker's queries at the joined path
strings exactly as the tree `t` rooted at path `p` prescribes.
-/

/-- A finite directory tree: a regular file with its size, or a directory
with its named entries. -/
inductive FTree where
  | file (size : Nat)
  | dir (entries : List (String × FTree))

mutual
/-- The oracle `fs` agrees with the tree `t` rooted at path string `p`:
classification, file sizes, and directory listings (up to `.`/`..`
pseudo-entries, which the tree never contains) all match. -/
def coherent (fs : FS) (p : String) : FTree → Bool
  | FTree.file s => !fs.isDir p && fs.isFile p && fs.statSize p == some s
  | FTree.dir es =>
    fs.isDir p &&
    (match fs.listDir p with
     | none => false
     | some names => names.filter nondot == es.map Prod.fst) &&
    coherentList fs p es
/-- Each entry `(n, t)` is non-dot and coherent at the joined path. -/
def coherentList (fs : FS) (p : String) : List (String × FTree) → Bool
  | [] => true
  | (n, t) :: rest =>
    nondot n && coherent fs (p ++ RCUTILS_PATH_DELIMITER ++ n) t &&
    coherentList fs p rest
end

/-- Sum of the sizes of the regular files directly inside a directory's
entry list. -/
def dirFilesSum : List (String × FTree) → Nat
  | [] => 0
  | (_, FTree.file s) :: r => s + dirFilesSum r
  | (_, FTree.dir _) :: r => dirFilesSum r

mutual
/-- The total the walker is expected to produce for a directory tree sitting
at depth `d` under depth bound `k` (`k = 0` unlimited): direct files always
count, a subdirectory is descended into exactly when `k = 0 ∨ d + 1 ≤ k`. -/
def specSize (k d : Nat) : FTree → Nat
  | FTree.file _ => 0
  | FTree.dir es => specSizeList k d es
def specSizeList (k d : Nat) : List (String × FTree) → Nat
  | [] => 0
  | (_, FTree.file s) :: r => s + specSizeList k d r
  | (_, FTree.dir es) :: r =>
    (if k = 0 ∨ d + 1 ≤ k then specSize k (d + 1) (FTree.dir es) else 0) +
    specSizeList k d r
end

/-- The subdirectory trees of an entry list that pass the depth test at
parent depth `d`, in listing order. -/
def allowedSubs (k d : Nat) : List (String × FTree) → List FTree
  | [] => []
  | (_, FTree.file _) :: r => allowedSubs k d r
  | (_, FTree.dir es) :: r =>
    if k = 0 ∨ d + 1 ≤ k then FTree.dir es :: allowedSubs k d r
    else allowedSubs k d r

mutual
/-- Number of worklist pops a traversal of this tree at depth `d` performs
(used as a fuel bound). -/
def expandCount (k d : Nat) : FTree → Nat
  | FTree.file _ => 0
  | FTree.dir es => 1 + expandCountList k d es
def expandCountList (k d : Nat) : List (String × FTree) → Nat
  | [] => 0
  | (_, FTree.file _) :: r => expandCountList k d r
  | (_, FTree.dir es) :: r =>
    (if k = 0 ∨ d + 1 ≤ k then expandCount k (d + 1) (FTree.dir es) else 0) +
    expandCountList k d r
end

mutual
/-- Sum of the sizes of all files in directories at depth at most `c`
relative to this tree (this tree's own directory = depth 1); `c = 0` counts
nothing. -/
def sumLevelsUpTo : Nat → FTree → Nat
  | 0, _ => 0
  | _ + 1, FTree.file _ => 0
  | c + 1, FTree.dir es => sumLevelsList c es
def sumLevelsList (c : Nat) : List (String × FTree) → Nat
  | [] => 0
  | (_, FTree.file s) :: r => s + sumLevelsList c r
  | (_, FTree.dir es) :: r => sumLevelsUpTo c (FTree.dir es) + sumLevelsList c r
end

mutual
/-- Sum of the sizes of the files lying in directories at depth exactly `j`
(this tree's own directory = depth 1; `j = 0` counts nothing). -/
def filesAtDepth : Nat → FTree → Nat
  | _, FTree.file _ => 0
  | 0, FTree.dir _ => 0
  | 1, FTree.dir es => dirFilesSum es
  | j + 2, FTree.dir es => filesAtDepthList (j + 1) es
def filesAtDepthList (j : Nat) : List (String × FTree) → Nat
  | [] => 0
  | (_, FTree.file _) :: r => filesAtDepthList j r
  | (_, FTree.dir es) :: r => filesAtDepth j (FTree.dir es) + filesAtDepthList j r
end

/-- Pointwise pairing of a worklist with directory trees: each node's path
string is the root of a coherent directory tree. -/
def wlCoh (fs : FS) : List dir_list_t → List FTree → Bool
  | [], [] => true
  | nd :: ws, t :: ts =>
    (match nd.path, t with
     | some (_, p), FTree.dir es => coherent fs p (FTree.dir es)
     | _, _ => false) && wlCoh fs ws ts
  | _, _ => false

/-- Expected total over a paired worklist. -/
def sumSpecZip (k : Nat) : List dir_list_t → List FTree → Nat
  | nd :: ws, t :: ts => specSize k nd.depth t + sumSpecZip k ws ts
  | _, _ => 0

/-- Fuel needed over a paired worklist. -/
def sumFuelZip (k : Nat) : List dir_list_t → List FTree → Nat
  | nd :: ws, t :: ts => expandCount k nd.depth t + sumFuelZip k ws ts
  | _, _ => 0


/-!
## Derived notions used by the statements
-/

/-- The worklist left over by a scan (`dir_list->next` at its end). -/
def ScanResult.tailOf : ScanResult → List dir_list_t
  | ScanResult.ok tail _ _ _ _ => tail
  | ScanResult.fail tail _ _ _ _ => tail

/-- The accumulated total at the end of a scan. -/
def ScanResult.totalOf : ScanResult → Nat
  | ScanResult.ok _ s _ _ _ => s
  | ScanResult.fail _ s _ _ _ => s

/-- The memory state at the end of a scan. -/
def ScanResult.memOf : ScanResult → MemState
  | ScanResult.ok _ _ m _ _ => m
  | ScanResult.fail _ _ m _ _ => m

/-- The ghost push log at the end of a scan. -/
def ScanResult.pushedOf : ScanResult → List Nat
  | ScanResult.ok _ _ _ pu _ => pu
  | ScanResult.fail _ _ _ pu _ => pu

/-- The ghost skip log at the end of a scan. -/
def ScanResult.skippedOf : ScanResult → List Nat
  | ScanResult.ok _ _ _ _ sk => sk
  | ScanResult.fail _ _ _ _ sk => sk

/-- The allocation ids owned by one worklist node: the node itself and (when
non-NULL) its path string. -/
def ndIds (nd : dir_list_t) : List Nat :=
  nd.nodeId :: (nd.path.map Prod.fst).toList

/-- All allocation ids owned by a worklist. -/
def idsOfList : List dir_list_t → List Nat
  | [] => []
  | nd :: rest => ndIds nd ++ idsOfList rest

/-- The sequence of `deallocate` arguments `free_dir_list` produces for a
worklist (per node: first its path pointer, then the node). -/
def freeLog : List dir_list_t → List (Option Nat)
  | [] => []
  | nd :: rest => nd.path.map Prod.fst :: some nd.nodeId :: freeLog rest

/-- Well-formedness of a memory state: only ids below the counter are live or
have ever been deallocated. -/
def MemWF (m : MemState) : Prop :=
  (∀ i ∈ m.live, i < m.ctr) ∧ (∀ i : Nat, some i ∈ m.deallocs → i < m.ctr)

/-- What a node looks like when its owning allocations are forgotten: its
path string and its depth.  The walker's total depends only on this. -/
def stripNode (nd : dir_list_t) : Option String × Nat :=
  (nd.path.map Prod.snd, nd.depth)

/-- Expected totals of a list of trees all sitting at depth `dd`. -/
def sumSpecAt (k dd : Nat) (ts : List FTree) : Nat :=
  (ts.map (specSize k dd)).sum

/-- Fuel needed by a list of trees all sitting at depth `dd`. -/
def sumFuelAt (k dd : Nat) (ts : List FTree) : Nat :=
  (ts.map (expandCount k dd)).sum

/-- A flat directory: every entry is a regular file of the given size. -/
def fileTree (l : List (String × Nat)) : FTree :=
  FTree.dir (l.map (fun pr => (pr.1, FTree.file pr.2)))

/-- A concrete oracle: the directory `r` holds a single subdirectory `a`
(which in turn is empty); used to exercise the depth-skip and
allocation-failure paths. -/
def fsOne : FS where
  listDir := fun p => if p = "r" then some ["a"] else if p = "r/a" then some [] else none
  isDir := fun p => p = "r" || p = "r/a"
  isFile := fun _ => false
  statSize := fun _ => none

/-- A concrete oracle for the end-to-end scenario: `r` holds file `a`
(100 bytes) and directory `b`; `b` holds file `c` (50 bytes) and directory
`d`; `d` holds file `e` (25 bytes). -/
def fsDeep : FS where
  listDir := fun p =>
    if p = "r" then some [".", "..", "a", "b"]
    else if p = "r/b" then some [".", "..", "c", "d"]
    else if p = "r/b/d" then some [".", "..", "e"]
    else none
  isDir := fun p => p = "r" || p = "r/b" || p = "r/b/d"
  isFile := fun p => p = "r/a" || p = "r/b/c" || p = "r/b/d/e"
  statSize := fun p =>
    if p = "r/a" then some 100
    else if p = "r/b/c" then some 50
    else if p = "r/b/d/e" then some 25
    else none

/-- The tree `fsDeep` realises at root path `r`. -/
def treeDeep : FTree :=
  FTree.dir [("a", FTree.file 100),
    ("b", FTree.dir [("c", FTree.file 50), ("d", FTree.dir [("e", FTree.file 25)])])]

/-!
## Basic lemmas about the memory model
-/

theorem deallocate_ctr (m : MemState) (o : Option Nat) : (deallocate m o).ctr = m.ctr := by
  cases o <;> rfl

theorem deallocate_deallocs (m : MemState) (o : Option Nat) :
    (deallocate m o).deallocs = m.deallocs ++ [o] := by
  cases o <;> rfl

theorem mem_deallocate_live (m : MemState) (o : Option Nat) (j : Nat) (h : o ≠ some j) :
    j ∈ (deallocate m o).live ↔ j ∈ m.live := by
  cases o with
  | none => exact Iff.rfl
  | some i =>
    have hij : j ≠ i := fun he => h (by rw [he])
    simpa [deallocate] using List.mem_erase_of_ne hij

theorem allocate_true (f : Nat → Bool) (m : MemState) (h : f m.ctr = true) :
    allocate f m = (some m.ctr, ⟨m.ctr + 1, m.ctr :: m.live, m.deallocs⟩) := by
  simp [allocate, h]

theorem allocate_false (f : Nat → Bool) (m : MemState) (h : f m.ctr = false) :
    allocate f m = (none, ⟨m.ctr + 1, m.live, m.deallocs⟩) := by
  simp [allocate, h]

theorem allocate_allTrue (m : MemState) :
    allocate allTrue m = (some m.ctr, ⟨m.ctr + 1, m.ctr :: m.live, m.deallocs⟩) := rfl

theorem free_dir_list_ctr (l : List dir_list_t) (m : MemState) :
    (free_dir_list l m).ctr = m.ctr := by
  induction l generalizing m with
  | nil => rfl
  | cons nd rest ih => simp [free_dir_list, ih, deallocate_ctr]

theorem free_dir_list_deallocs (l : List dir_list_t) (m : MemState) :
    (free_dir_list l m).deallocs = m.deallocs ++ freeLog l := by
  induction l generalizing m with
  | nil => simp [free_dir_list, freeLog]
  | cons nd rest ih => simp [free_dir_list, freeLog, ih, deallocate_deallocs]

theorem mem_ndIds (nd : dir_list_t) (i : Nat) :
    i ∈ ndIds nd ↔ i = nd.nodeId ∨ nd.path.map Prod.fst = some i := by
  cases h : nd.path with
  | none => simp [ndIds, h]
  | some pr => simp [ndIds, h, eq_comm]

theorem mem_freeLog (l : List dir_list_t) (j : Nat) (h : some j ∈ freeLog l) :
    j ∈ idsOfList l := by
  induction l with
  | nil => simp [freeLog] at h
  | cons nd rest ih =>
    simp only [freeLog, List.mem_cons] at h
    simp only [idsOfList, List.mem_append]
    rcases h with h | h | h
    · exact Or.inl ((mem_ndIds nd j).mpr (Or.inr h.symm))
    · exact Or.inl ((mem_ndIds nd j).mpr (Or.inl (Option.some_inj.mp h)))
    · exact Or.inr (ih h)

theorem free_dir_list_live (l : List dir_list_t) (m : MemState) (j : Nat)
    (h : j ∉ idsOfList l) : j ∈ (free_dir_list l m).live ↔ j ∈ m.live := by
  induction l generalizing m with
  | nil => exact Iff.rfl
  | cons nd rest ih =>
    have h1 : j ∉ ndIds nd := fun hmem => h (by simp [idsOfList, hmem])
    have h2 : j ∉ idsOfList rest := fun hmem => h (by simp [idsOfList, hmem])
    have hn : (some nd.nodeId : Option Nat) ≠ some j := by
      intro he
      exact h1 (by simp [mem_ndIds, (Option.some.injEq _ _).mp he])
    have hpth : nd.path.map Prod.fst ≠ some j := by
      intro he
      exact h1 ((mem_ndIds nd j).mpr (Or.inr he))
    rw [free_dir_list, ih _ h2, mem_deallocate_live _ _ _ hn, mem_deallocate_live _ _ _ hpth]

/-!
## C6, C7, C10
-/

/-- C6: calling the convenience entry point on a path that is not a
directory returns 0 and performs no allocation whatsoever — the memory state
comes back unchanged, so in particular no worklist node is allocated and the
walker is never entered. -/
theorem calculate_directory_size_non_directory (fs : FS) (f : Nat → Bool) (p : String)
    (fuel : Nat) (m0 : MemState) (h : fs.isDir p = false) :
    rcutils_calculate_directory_size fs f p fuel m0 = some ⟨0, m0, [], []⟩ := by
  simp [rcutils_calculate_directory_size, h]

theorem calculate_directory_size_non_directory_witness :
    fsFlat.isDir "r/a" = false ∧
      rcutils_calculate_directory_size fsFlat allTrue "r/a" 5 initMem =
        some ⟨0, initMem, [], []⟩ :=
  ⟨by decide,
    calculate_directory_size_non_directory fsFlat allTrue "r/a" 5 initMem (by decide)⟩

/-- C7: a `.` or `..` entry is skipped outright — scanning past it leaves
the worklist, the running total, the memory state and both ghost logs
completely unchanged, so such entries are never sized, never pushed, and
cannot make the traversal revisit a directory. -/
theorem scan_skips_dot_entries (fs : FS) (f : Nat → Bool) (k : Nat) (dp : String)
    (d : Nat) (name : String) (h : name = "." ∨ name = "..") (names : List String)
    (tail : List dir_list_t) (dir_size : Nat) (m : MemState) (pu sk : List Nat) :
    scanEntries fs f k dp d (name :: names) tail dir_size m pu sk =
      scanEntries fs f k dp d names tail dir_size m pu sk := by
  have hnd : nondot name = false := by
    rcases h with h | h <;> simp [nondot, h]
  simp [scanEntries, hnd]

theorem scan_skips_dot_entries_witness :
    scanEntries fsFlat allTrue 0 "r" 1 ["."] [] 0 initMem [] [] =
      scanEntries fsFlat allTrue 0 "r" 1 [] [] 0 initMem [] [] :=
  scan_skips_dot_entries fsFlat allTrue 0 "r" 1 "." (Or.inl rfl) [] [] 0 initMem [] []

/-- C10: when the root worklist node has been allocated but duplicating the
root path fails, the cleanup path frees the node with its NULL path pointer:
the walker returns 0 and the deallocation log gains a `deallocate(NULL)`
entry (`none`) followed by the node's id — so any allocator handed to the
walker must tolerate `deallocate(NULL)`. -/
theorem strdup_failure_deallocates_null (fs : FS) (f : Nat → Bool) (p : String)
    (k fuel : Nat) (m0 : MemState) (h0 : f m0.ctr = true) (h1 : f (m0.ctr + 1) = false) :
    rcutils_calculate_directory_size_with_recursion fs f p k fuel m0 =
      some ⟨0, ⟨m0.ctr + 2, m0.live, m0.deallocs ++ [none, some m0.ctr]⟩, [], []⟩ ∧
    (none : Option Nat) ∈ m0.deallocs ++ [none, some m0.ctr] := by
  refine ⟨?_, by simp⟩
  simp [rcutils_calculate_directory_size_with_recursion, rcutils_strdup,
    allocate_true _ _ h0, allocate_false, h1, free_dir_list, deallocate]

theorem strdup_failure_deallocates_null_witness :
    rcutils_calculate_directory_size_with_recursion fsFlat (fun n => n == 0) "r" 0 3 initMem =
      some ⟨0, ⟨2, [], [none, some 0]⟩, [], []⟩ ∧
    (none : Option Nat) ∈ ([] : List (Option Nat)) ++ [none, some 0] := by
  have h := strdup_failure_deallocates_null fsFlat (fun n => n == 0) "r" 0 3 initMem
    (by decide) (by decide)
  simpa [initMem] using h

/-!
## C3: errors truncate the traversal and yield the partial total
-/

/-- C3: every traversal error is non-fatal and yields the total accumulated
so far. (a) A directory that cannot be opened makes the walker free the
whole remaining worklist and return the running total unchanged. (b) A
path-join failure aborts the scan with the running total unchanged. (c) A
worklist-node allocation failure aborts the scan with the running total
unchanged. (d) The walker turns an aborted scan into a full cleanup and
returns exactly the scan's accumulated total. (e) An allocation failure
before any file has been sized makes the call return 0. No branch retries
anything: each failure leads directly to a returned value. -/
theorem walker_error_returns_partial_total (fs : FS) (f : Nat → Bool) (k : Nat) :
    (∀ (fuel : Nat) (hd : dir_list_t) (rest : List dir_list_t) (dir_size : Nat)
        (m : MemState) (pu sk : List Nat) (pathId : Nat) (p : String),
        hd.path = some (pathId, p) → fs.listDir p = none →
        walkLoop fs f k (fuel + 1) (hd :: rest) dir_size m pu sk =
          some ⟨dir_size, free_dir_list (hd :: rest) m, pu, sk⟩) ∧
    (∀ (dp : String) (d : Nat) (name : String) (names : List String)
        (tail : List dir_list_t) (dir_size : Nat) (m : MemState) (pu sk : List Nat),
        nondot name = true → f m.ctr = false →
        scanEntries fs f k dp d (name :: names) tail dir_size m pu sk =
          ScanResult.fail tail dir_size ⟨m.ctr + 1, m.live, m.deallocs⟩ pu sk) ∧
    (∀ (dp : String) (d : Nat) (name : String) (names : List String)
        (tail : List dir_list_t) (dir_size : Nat) (m : MemState) (pu sk : List Nat),
        nondot name = true → f m.ctr = true →
        fs.isDir (dp ++ RCUTILS_PATH_DELIMITER ++ name) = true →
        (k = 0 ∨ d + 1 ≤ k) → f (m.ctr + 1) = false →
        scanEntries fs f k dp d (name :: names) tail dir_size m pu sk =
          ScanResult.fail tail dir_size ⟨m.ctr + 2, m.ctr :: m.live, m.deallocs⟩ pu sk) ∧
    (∀ (fuel : Nat) (hd : dir_list_t) (rest : List dir_list_t) (names : List String)
        (dir_size : Nat) (m : MemState) (pu sk : List Nat) (pathId : Nat) (p : String)
        (tail : List dir_list_t) (size2 : Nat) (m2 : MemState) (pu2 sk2 : List Nat),
        hd.path = some (pathId, p) → fs.listDir p = some names →
        scanEntries fs f k p hd.depth names rest dir_size m pu sk =
          ScanResult.fail tail size2 m2 pu2 sk2 →
        walkLoop fs f k (fuel + 1) (hd :: rest) dir_size m pu sk =
          some ⟨size2, free_dir_list (hd :: tail) m2, pu2, sk2⟩) ∧
    (∀ (p : String) (fuel : Nat) (m0 : MemState),
        f m0.ctr = false →
        rcutils_calculate_directory_size_with_recursion fs f p k fuel m0 =
          some ⟨0, ⟨m0.ctr + 1, m0.live, m0.deallocs⟩, [], []⟩) := by
  refine ⟨?_, ?_, ?_, ?_, ?_⟩
  · intro fuel hd rest dir_size m pu sk pathId p hpath hlist
    simp [walkLoop, hpath, hlist]
  · intro dp d name names tail dir_size m pu sk hname hf
    simp [scanEntries, hname, rcutils_join_path, allocate_false _ _ hf]
  · intro dp d name names tail dir_size m pu sk hname hf0 hdir hg hf1
    have hg' : (k = 0 ∨ d + 1 ≤ k) = True := eq_true hg
    simp [scanEntries, hname, rcutils_join_path, allocate_true _ _ hf0, hdir, hg',
      allocate_false, hf1]
  · intro fuel hd rest names dir_size m pu sk pathId p tail size2 m2 pu2 sk2
      hpath hlist hscan
    simp [walkLoop, hpath, hlist, hscan]
  · intro p fuel m0 hf
    simp [rcutils_calculate_directory_size_with_recursion, allocate_false _ _ hf]

theorem walker_error_returns_partial_total_witness :
    (walkLoop fsOne (fun n => decide (n < 2)) 0 1 [⟨0, some (1, "x"), 1⟩] 7
        ⟨2, [1, 0], []⟩ [] [] =
      some ⟨7, free_dir_list [⟨0, some (1, "x"), 1⟩] ⟨2, [1, 0], []⟩, [], []⟩) ∧
    (scanEntries fsOne (fun n => decide (n < 2)) 0 "r" 1 ["a"] [] 5 ⟨5, [], []⟩ [] [] =
      ScanResult.fail [] 5 ⟨6, [], []⟩ [] []) ∧
    (scanEntries fsOne (fun n => decide (n < 2)) 0 "r" 1 ["a"] [] 5 ⟨1, [0], []⟩ [] [] =
      ScanResult.fail [] 5 ⟨3, [1, 0], []⟩ [] []) ∧
    (walkLoop fsOne (fun n => decide (n < 2)) 0 1 [⟨0, some (1, "r"), 1⟩] 0
        ⟨2, [1, 0], []⟩ [] [] =
      some ⟨0, free_dir_list [⟨0, some (1, "r"), 1⟩] ⟨3, [1, 0], []⟩, [], []⟩) ∧
    (rcutils_calculate_directory_size_with_recursion fsOne (fun n => decide (n < 2)) "r" 0 1
        ⟨7, [], []⟩ =
      some ⟨0, ⟨8, [], []⟩, [], []⟩) := by
  obtain ⟨a, b, c, d, e⟩ :=
    walker_error_returns_partial_total fsOne (fun n => decide (n < 2)) 0
  refine ⟨a 0 _ [] 7 ⟨2, [1, 0], []⟩ [] [] 1 "x" rfl (by decide), ?_, ?_, ?_, ?_⟩
  · exact b "r" 1 "a" [] [] 5 ⟨5, [], []⟩ [] [] (by decide) (by decide)
  · exact c "r" 1 "a" [] [] 5 ⟨1, [0], []⟩ [] [] (by decide) (by decide) (by decide)
      (Or.inl rfl) (by decide)
  · exact d 0 _ [] ["a"] 0 ⟨2, [1, 0], []⟩ [] [] 1 "r" [] 0 ⟨3, [1, 0], []⟩ [] []
      rfl (by decide) (by decide)
  · exact e "r" 1 ⟨7, [], []⟩ (by decide)

/-!
## C4: cleanup on failure
-/

/-- C4 (counterexample): with the allocator failing at the fourth allocation
(the worklist node for the discovered subdirectory `r/a`), the walker's
cleanup frees the root node (id 0) and its path string (id 1) but the path
string just produced by `rcutils_join_path` (id 2) is still live at return
and never appears in the deallocation log: not every allocation made during
the call is released on the failure path. -/
theorem walker_leaks_on_node_alloc_failure :
    rcutils_calculate_directory_size_with_recursion fsOne (fun n => !(n == 3)) "r" 0 2
        initMem =
      some ⟨0, ⟨4, [2], [some 1, some 0]⟩, [], []⟩ := by
  decide

theorem mem_idsOfList_of_mem (l : List dir_list_t) (nd : dir_list_t) (h : nd ∈ l) :
    nd.nodeId ∈ idsOfList l ∧
      ∀ pid s, nd.path = some (pid, s) → pid ∈ idsOfList l := by
  induction l with
  | nil => simp at h
  | cons hd rest ih =>
    rcases List.mem_cons.mp h with h | h
    · subst h
      refine ⟨by simp [idsOfList, ndIds], ?_⟩
      intro pid s hp
      simp [idsOfList, ndIds, hp]
    · obtain ⟨h1, h2⟩ := ih h
      refine ⟨?_, ?_⟩
      · simp only [idsOfList, List.mem_append]
        exact Or.inr h1
      · intro pid s hp
        simp only [idsOfList, List.mem_append]
        exact Or.inr (h2 pid s hp)

theorem count_freeLog_zero (l : List dir_list_t) (i : Nat) (h : i ∉ idsOfList l) :
    (freeLog l).count (some i) = 0 := by
  rw [List.count_eq_zero]
  exact fun hmem => h (mem_freeLog l i hmem)

theorem count_freeLog_of_nodup (l : List dir_list_t) (hnodup : (idsOfList l).Nodup) :
    ∀ nd ∈ l, ((freeLog l).count (some nd.nodeId) = 1 ∧
      ∀ pid s, nd.path = some (pid, s) → (freeLog l).count (some pid) = 1) := by
  induction l with
  | nil => intro nd h; simp at h
  | cons hd rest ih =>
    obtain ⟨hn1, hn2, hdisj⟩ :
        (ndIds hd).Nodup ∧ (idsOfList rest).Nodup ∧ (ndIds hd).Disjoint (idsOfList rest) :=
      List.nodup_append.mp (by simpa [idsOfList] using hnodup)
    intro nd hmem
    rcases List.mem_cons.mp hmem with h | h
    · subst h
      have hzero : (freeLog rest).count (some nd.nodeId) = 0 :=
        count_freeLog_zero rest nd.nodeId (hdisj (by simp [ndIds]))
      cases hp : nd.path with
      | none =>
        refine ⟨?_, by simp [hp]⟩
        simp [freeLog, hp, List.count_cons, hzero]
      | some pr =>
        obtain ⟨pid, s⟩ := pr
        have hne : nd.nodeId ≠ pid := by
          have := hn1
          simp [ndIds, hp, List.nodup_cons] at this
          exact this
        have hzero2 : (freeLog rest).count (some pid) = 0 :=
          count_freeLog_zero rest pid (hdisj (by simp [ndIds, hp]))
        refine ⟨?_, ?_⟩
        · simp [freeLog, hp, List.count_cons, hzero, hne]
        · intro pid2 s2 hp2
          have h3 : (pid, s) = (pid2, s2) := Option.some_inj.mp hp2
          have h4 : pid2 = pid := (congrArg Prod.fst h3).symm
          subst h4
          simp [freeLog, hp, List.count_cons, hzero2, hne.symm]
    · obtain ⟨hA, hB⟩ := ih hn2 nd h
      obtain ⟨hid, hpid⟩ := mem_idsOfList_of_mem rest nd h
      have hnot1 : nd.nodeId ∉ ndIds hd := fun hc => hdisj hc hid
      have hne1 : (some nd.nodeId : Option Nat) ≠ some hd.nodeId := by
        intro he
        exact hnot1 (by simp [ndIds, Option.some_inj.mp he])
      have hne2 : (some nd.nodeId : Option Nat) ≠ hd.path.map Prod.fst := by
        intro he
        exact hnot1 ((mem_ndIds hd nd.nodeId).mpr (Or.inr he.symm))
      refine ⟨?_, ?_⟩
      · simp [freeLog, List.count_cons, hA, hne1, hne2]
      · intro pid s hp
        have hpidmem : pid ∈ idsOfList rest := hpid pid s hp
        have hnotp : pid ∉ ndIds hd := fun hc => hdisj hc hpidmem
        have hpe1 : (some pid : Option Nat) ≠ some hd.nodeId := by
          intro he
          exact hnotp (by simp [ndIds, Option.some_inj.mp he])
        have hpe2 : (some pid : Option Nat) ≠ hd.path.map Prod.fst := by
          intro he
          exact hnotp ((mem_ndIds hd pid).mpr (Or.inr he.symm))
        simp [freeLog, List.count_cons, hB pid s hp, hpe1, hpe2]

/-- C4 (amended): on the failure path the cleanup routine releases every
worklist node still linked from the current head — both the node and (when
non-NULL) its path string — exactly once, assuming the ids are pairwise
distinct and not previously released; the in-flight entry path string of the
failing step, however, is not part of the worklist and is not released (see
the counterexample). -/
theorem fail_cleanup_releases_worklist_exactly_once (l : List dir_list_t) (m : MemState)
    (hnodup : (idsOfList l).Nodup)
    (hfresh : ∀ i ∈ idsOfList l, (some i : Option Nat) ∉ m.deallocs) :
    ∀ nd ∈ l, ((free_dir_list l m).deallocs.count (some nd.nodeId) = 1 ∧
      ∀ pid s, nd.path = some (pid, s) →
        (free_dir_list l m).deallocs.count (some pid) = 1) := by
  intro nd hmem
  obtain ⟨hA, hB⟩ := count_freeLog_of_nodup l hnodup nd hmem
  obtain ⟨hid, hpid⟩ := mem_idsOfList_of_mem l nd hmem
  rw [free_dir_list_deallocs]
  constructor
  · rw [List.count_append, List.count_eq_zero.mpr (hfresh _ hid), hA, Nat.zero_add]
  · intro pid s hp
    rw [List.count_append, List.count_eq_zero.mpr (hfresh _ (hpid pid s hp)), hB pid s hp,
      Nat.zero_add]

theorem fail_cleanup_releases_worklist_exactly_once_witness :
    ((free_dir_list [⟨0, some (1, "r"), 1⟩, ⟨2, some (3, "r/a"), 2⟩]
        ⟨4, [3, 2, 1, 0], []⟩).deallocs.count (some 0) = 1) ∧
    ((free_dir_list [⟨0, some (1, "r"), 1⟩, ⟨2, some (3, "r/a"), 2⟩]
        ⟨4, [3, 2, 1, 0], []⟩).deallocs.count (some 1) = 1) := by
  obtain ⟨h1, h2⟩ :=
    fail_cleanup_releases_worklist_exactly_once
      [⟨0, some (1, "r"), 1⟩, ⟨2, some (3, "r/a"), 2⟩] ⟨4, [3, 2, 1, 0], []⟩
      (by decide) (by decide) ⟨0, some (1, "r"), 1⟩ (by decide)
  exact ⟨h1, h2 1 "r" rfl⟩

/-!
## C8: the total is independent of the incoming memory state
-/

theorem join_allTrue (l r : String) (m : MemState) :
    rcutils_join_path l r allTrue m =
      (some (m.ctr, l ++ RCUTILS_PATH_DELIMITER ++ r),
        ⟨m.ctr + 1, m.ctr :: m.live, m.deallocs⟩) := rfl

theorem strdup_allTrue (s : String) (m : MemState) :
    rcutils_strdup s allTrue m =
      (some (m.ctr, s), ⟨m.ctr + 1, m.ctr :: m.live, m.deallocs⟩) := rfl

theorem scan_strip (fs : FS) (k : Nat) (dp : String) (d : Nat) :
    ∀ (names : List String) (tail1 tail2 : List dir_list_t) (dir_size : Nat)
      (m1 m2 : MemState) (pu1 pu2 sk1 sk2 : List Nat),
      tail1.map stripNode = tail2.map stripNode →
      ∃ t1 t2 s mm1 mm2 pp1 pp2 ss1 ss2,
        scanEntries fs allTrue k dp d names tail1 dir_size m1 pu1 sk1 =
          ScanResult.ok t1 s mm1 pp1 ss1 ∧
        scanEntries fs allTrue k dp d names tail2 dir_size m2 pu2 sk2 =
          ScanResult.ok t2 s mm2 pp2 ss2 ∧
        t1.map stripNode = t2.map stripNode := by
  intro names
  induction names with
  | nil =>
    intro tail1 tail2 dir_size m1 m2 pu1 pu2 sk1 sk2 hmap
    exact ⟨tail1, tail2, dir_size, m1, m2, pu1, pu2, sk1, sk2, rfl, rfl, hmap⟩
  | cons name names ih =>
    intro tail1 tail2 dir_size m1 m2 pu1 pu2 sk1 sk2 hmap
    by_cases hnd : nondot name = true
    · simp only [scanEntries, hnd, if_true, join_allTrue]
      by_cases hdir : fs.isDir (dp ++ RCUTILS_PATH_DELIMITER ++ name) = true
      · simp only [hdir, if_true]
        by_cases hg : k = 0 ∨ d + 1 ≤ k
        · simp only [if_pos hg, allocate_allTrue]
          exact ih _ _ dir_size _ _ _ _ _ _ (by simp [stripNode, hmap])
        · simp only [if_neg hg]
          exact ih _ _ dir_size _ _ _ _ _ _ hmap
      · simp only [Bool.not_eq_true] at hdir
        simp only [hdir, Bool.false_eq_true, if_false]
        exact ih _ _ _ _ _ _ _ _ _ hmap
    · simp only [Bool.not_eq_true] at hnd
      simp only [scanEntries, hnd, Bool.false_eq_true, if_false]
      exact ih _ _ dir_size _ _ _ _ _ _ hmap

theorem walk_strip (fs : FS) (k : Nat) :
    ∀ (fuel : Nat) (ws1 ws2 : List dir_list_t) (dir_size : Nat) (m1 m2 : MemState)
      (pu1 pu2 sk1 sk2 : List Nat),
      ws1.map stripNode = ws2.map stripNode →
      Option.map WalkOut.size (walkLoop fs allTrue k fuel ws1 dir_size m1 pu1 sk1) =
        Option.map WalkOut.size (walkLoop fs allTrue k fuel ws2 dir_size m2 pu2 sk2) := by
  intro fuel
  induction fuel with
  | zero =>
    intro ws1 ws2 dir_size m1 m2 pu1 pu2 sk1 sk2 hmap
    cases ws1 with
    | nil =>
      have : ws2 = [] := by simpa using (List.map_eq_nil_iff.mp hmap.symm)
      subst this
      rfl
    | cons hd1 r1 =>
      cases ws2 with
      | nil => simp at hmap
      | cons hd2 r2 => rfl
  | succ fuel ih =>
    intro ws1 ws2 dir_size m1 m2 pu1 pu2 sk1 sk2 hmap
    cases ws1 with
    | nil =>
      have : ws2 = [] := by simpa using (List.map_eq_nil_iff.mp hmap.symm)
      subst this
      rfl
    | cons hd1 r1 =>
      cases ws2 with
      | nil => simp at hmap
      | cons hd2 r2 =>
        simp only [List.map_cons, List.cons.injEq] at hmap
        obtain ⟨hhd, htl⟩ := hmap
        have hpa : hd1.path.map Prod.snd = hd2.path.map Prod.snd :=
          congrArg Prod.fst hhd
        have hde : hd1.depth = hd2.depth := congrArg Prod.snd hhd
        cases hp1 : hd1.path with
        | none =>
          have hp2 : hd2.path = none := by
            rw [hp1] at hpa
            exact Option.map_eq_none'.mp hpa.symm
          simp [walkLoop, hp1, hp2]
        | some pr1 =>
          obtain ⟨pid1, p1⟩ := pr1
          cases hp2 : hd2.path with
          | none =>
            rw [hp1, hp2] at hpa
            simp at hpa
          | some pr2 =>
            obtain ⟨pid2, p2⟩ := pr2
            have hpp : p1 = p2 := by
              rw [hp1, hp2] at hpa
              simpa using hpa
            subst hpp
            cases hl : fs.listDir p1 with
            | none => simp [walkLoop, hp1, hp2, hl]
            | some names =>
              obtain ⟨t1, t2, s, mm1, mm2, pp1, pp2, ss1, ss2, hs1, hs2, hteq⟩ :=
                scan_strip fs k p1 hd1.depth names r1 r2 dir_size m1 m2 pu1 pu2 sk1 sk2 htl
              simp only [walkLoop, hp1, hp2, hl, ← hde, hs1, hs2]
              exact ih t1 t2 s _ _ pp1 pp2 ss1 ss2 hteq

/-- C8: the walker is deterministic.  Against a fixed (unmodified)
filesystem oracle, fixed root path, fixed depth bound and fuel, and a
reliable allocator, two calls return the same total whatever memory states
they start from — in particular a repeated call (whose allocator counter has
advanced) returns the same total as the first. -/
theorem walker_total_deterministic (fs : FS) (p : String) (k fuel : Nat)
    (m1 m2 : MemState) :
    Option.map WalkOut.size
        (rcutils_calculate_directory_size_with_recursion fs allTrue p k fuel m1) =
      Option.map WalkOut.size
        (rcutils_calculate_directory_size_with_recursion fs allTrue p k fuel m2) := by
  simp only [rcutils_calculate_directory_size_with_recursion, strdup_allTrue,
    allocate_allTrue]
  exact walk_strip fs k fuel _ _ 0 _ _ [] [] [] [] (by simp [stripNode])

/-!
## Coherent traversals compute the specified total
-/

theorem wlCoh_nil_left (fs : FS) (ts : List FTree) (h : wlCoh fs [] ts = true) :
    ts = [] := by
  cases ts with
  | nil => rfl
  | cons t ts' => simp [wlCoh] at h

theorem wlCoh_cons (fs : FS) (nd : dir_list_t) (ws : List dir_list_t) (t : FTree)
    (ts : List FTree) (h : wlCoh fs (nd :: ws) (t :: ts) = true) :
    ∃ pid p es, nd.path = some (pid, p) ∧ t = FTree.dir es ∧
      coherent fs p (FTree.dir es) = true ∧ wlCoh fs ws ts = true := by
  cases hp : nd.path with
  | none => cases t <;> simp [wlCoh, hp] at h
  | some pr =>
    obtain ⟨pid, p⟩ := pr
    cases t with
    | file s => simp [wlCoh, hp] at h
    | dir es =>
      simp only [wlCoh, hp, Bool.and_eq_true] at h
      exact ⟨pid, p, es, rfl, rfl, h.1, h.2⟩

theorem wlCoh_length (fs : FS) : ∀ (ws : List dir_list_t) (ts : List FTree),
    wlCoh fs ws ts = true → ws.length = ts.length := by
  intro ws
  induction ws with
  | nil =>
    intro ts h
    rw [wlCoh_nil_left fs ts h]
    rfl
  | cons nd ws' ih =>
    intro ts h
    cases ts with
    | nil => simp [wlCoh] at h
    | cons t ts' =>
      obtain ⟨_, _, _, _, _, _, h'⟩ := wlCoh_cons fs nd ws' t ts' h
      simp [ih ts' h']

theorem wlCoh_append (fs : FS) : ∀ (a c : List dir_list_t) (b d : List FTree),
    wlCoh fs a b = true → wlCoh fs c d = true → wlCoh fs (a ++ c) (b ++ d) = true := by
  intro a
  induction a with
  | nil =>
    intro c b d h1 h2
    rw [wlCoh_nil_left fs b h1]
    simpa using h2
  | cons nd a' ih =>
    intro c b d h1 h2
    cases b with
    | nil => simp [wlCoh] at h1
    | cons t b' =>
      simp only [wlCoh, Bool.and_eq_true] at h1
      simp only [List.cons_append, wlCoh, Bool.and_eq_true]
      exact ⟨h1.1, ih c b' d h1.2 h2⟩

theorem sumSpecZip_append (k : Nat) : ∀ (a : List dir_list_t) (b : List FTree)
    (c : List dir_list_t) (d : List FTree), a.length = b.length →
    sumSpecZip k (a ++ c) (b ++ d) = sumSpecZip k a b + sumSpecZip k c d := by
  intro a
  induction a with
  | nil =>
    intro b c d hlen
    cases b with
    | nil => simp [sumSpecZip]
    | cons t b' => simp at hlen
  | cons nd a' ih =>
    intro b c d hlen
    cases b with
    | nil => simp at hlen
    | cons t b' =>
      simp only [List.cons_append, sumSpecZip, List.append_eq]
      rw [ih b' c d (by simpa using hlen)]
      omega

theorem sumFuelZip_append (k : Nat) : ∀ (a : List dir_list_t) (b : List FTree)
    (c : List dir_list_t) (d : List FTree), a.length = b.length →
    sumFuelZip k (a ++ c) (b ++ d) = sumFuelZip k a b + sumFuelZip k c d := by
  intro a
  induction a with
  | nil =>
    intro b c d hlen
    cases b with
    | nil => simp [sumFuelZip]
    | cons t b' => simp at hlen
  | cons nd a' ih =>
    intro b c d hlen
    cases b with
    | nil => simp at hlen
    | cons t b' =>
      simp only [List.cons_append, sumFuelZip, List.append_eq]
      rw [ih b' c d (by simpa using hlen)]
      omega

theorem sumSpecZip_const_depth (k dd : Nat) : ∀ (a : List dir_list_t) (b : List FTree),
    a.length = b.length → (∀ nd ∈ a, nd.depth = dd) →
    sumSpecZip k a b = sumSpecAt k dd b := by
  intro a
  induction a with
  | nil =>
    intro b hlen _
    cases b with
    | nil => simp [sumSpecZip, sumSpecAt]
    | cons t b' => simp at hlen
  | cons nd a' ih =>
    intro b hlen hdep
    cases b with
    | nil => simp at hlen
    | cons t b' =>
      have hnd : nd.depth = dd := hdep nd (by simp)
      simp only [sumSpecZip, sumSpecAt, List.map_cons, List.sum_cons, hnd,
        ih b' (by simpa using hlen) (fun x hx => hdep x (by simp [hx]))]

theorem sumFuelZip_const_depth (k dd : Nat) : ∀ (a : List dir_list_t) (b : List FTree),
    a.length = b.length → (∀ nd ∈ a, nd.depth = dd) →
    sumFuelZip k a b = sumFuelAt k dd b := by
  intro a
  induction a with
  | nil =>
    intro b hlen _
    cases b with
    | nil => simp [sumFuelZip, sumFuelAt]
    | cons t b' => simp at hlen
  | cons nd a' ih =>
    intro b hlen hdep
    cases b with
    | nil => simp at hlen
    | cons t b' =>
      have hnd : nd.depth = dd := hdep nd (by simp)
      simp only [sumFuelZip, sumFuelAt, List.map_cons, List.sum_cons, hnd,
        ih b' (by simpa using hlen) (fun x hx => hdep x (by simp [hx]))]

theorem sumSpecAt_reverse (k dd : Nat) (l : List FTree) :
    sumSpecAt k dd l.reverse = sumSpecAt k dd l := by
  simp [sumSpecAt, List.map_reverse, List.sum_reverse]

theorem sumFuelAt_reverse (k dd : Nat) (l : List FTree) :
    sumFuelAt k dd l.reverse = sumFuelAt k dd l := by
  simp [sumFuelAt, List.map_reverse, List.sum_reverse]

theorem specSizeList_decomp (k d : Nat) :
    ∀ es : List (String × FTree),
      specSizeList k d es = dirFilesSum es + sumSpecAt k (d + 1) (allowedSubs k d es) := by
  intro es
  induction es with
  | nil => simp [specSizeList, dirFilesSum, allowedSubs, sumSpecAt]
  | cons pr r ih =>
    obtain ⟨n, t⟩ := pr
    cases t with
    | file s =>
      simp only [specSizeList, dirFilesSum, allowedSubs, ih]
      omega
    | dir es2 =>
      by_cases hg : k = 0 ∨ d + 1 ≤ k
      · simp only [specSizeList, dirFilesSum, allowedSubs, if_pos hg, ih, sumSpecAt,
          List.map_cons, List.sum_cons]
        omega
      · simp only [specSizeList, dirFilesSum, allowedSubs, if_neg hg, ih]
        omega

theorem expandCountList_decomp (k d : Nat) :
    ∀ es : List (String × FTree),
      expandCountList k d es = sumFuelAt k (d + 1) (allowedSubs k d es) := by
  intro es
  induction es with
  | nil => simp [expandCountList, allowedSubs, sumFuelAt]
  | cons pr r ih =>
    obtain ⟨n, t⟩ := pr
    cases t with
    | file s => simp only [expandCountList, allowedSubs, ih]
    | dir es2 =>
      by_cases hg : k = 0 ∨ d + 1 ≤ k
      · simp only [expandCountList, allowedSubs, if_pos hg, ih, sumFuelAt,
          List.map_cons, List.sum_cons]
      · simp only [expandCountList, allowedSubs, if_neg hg, ih]
        omega

theorem expandCount_dir (k d : Nat) (es : List (String × FTree)) :
    expandCount k d (FTree.dir es) = 1 + sumFuelAt k (d + 1) (allowedSubs k d es) := by
  rw [expandCount, expandCountList_decomp]

theorem coherent_file (fs : FS) (p : String) (s : Nat)
    (h : coherent fs p (FTree.file s) = true) :
    fs.isDir p = false ∧ fs.isFile p = true ∧ fs.statSize p = some s := by
  rw [coherent] at h
  simp only [Bool.and_eq_true, Bool.not_eq_true', beq_iff_eq] at h
  exact ⟨h.1.1, h.1.2, h.2⟩

theorem coherent_dir (fs : FS) (p : String) (es : List (String × FTree))
    (h : coherent fs p (FTree.dir es) = true) :
    fs.isDir p = true ∧
      (∃ names, fs.listDir p = some names ∧ names.filter nondot = es.map Prod.fst) ∧
      coherentList fs p es = true := by
  rw [coherent] at h
  simp only [Bool.and_eq_true] at h
  obtain ⟨⟨h1, h2⟩, h3⟩ := h
  refine ⟨h1, ?_, h3⟩
  cases hl : fs.listDir p with
  | none => rw [hl] at h2; simp at h2
  | some names =>
    rw [hl] at h2
    exact ⟨names, rfl, by simpa using h2⟩

theorem coherentList_cons (fs : FS) (p n : String) (t : FTree)
    (rest : List (String × FTree)) (h : coherentList fs p ((n, t) :: rest) = true) :
    nondot n = true ∧ coherent fs (p ++ RCUTILS_PATH_DELIMITER ++ n) t = true ∧
      coherentList fs p rest = true := by
  rw [coherentList] at h
  simp only [Bool.and_eq_true] at h
  exact ⟨h.1.1, h.1.2, h.2⟩

theorem scan_coherent (fs : FS) (k : Nat) (p : String) (d : Nat) :
    ∀ (names : List String) (es : List (String × FTree)) (tail : List dir_list_t)
      (dir_size : Nat) (m : MemState) (pu sk : List Nat),
      names.filter nondot = es.map Prod.fst →
      coherentList fs p es = true →
      ∃ newNodes m2 pu2 sk2,
        scanEntries fs allTrue k p d names tail dir_size m pu sk =
          ScanResult.ok (newNodes ++ tail) (dir_size + dirFilesSum es) m2 pu2 sk2 ∧
        wlCoh fs newNodes ((allowedSubs k d es).reverse) = true ∧
        (∀ nd ∈ newNodes, nd.depth = d + 1) := by
  intro names
  induction names with
  | nil =>
    intro es tail dir_size m pu sk hf hcl
    have hes : es = [] := by
      cases es with
      | nil => rfl
      | cons e r => simp at hf
    subst hes
    exact ⟨[], m, pu, sk, by simp [scanEntries, dirFilesSum],
      by simp [allowedSubs, wlCoh], by simp⟩
  | cons name names ih =>
    intro es tail dir_size m pu sk hf hcl
    by_cases hnd : nondot name = true
    · rw [List.filter_cons_of_pos hnd] at hf
      cases es with
      | nil => simp at hf
      | cons pr es' =>
        obtain ⟨n, t⟩ := pr
        simp only [List.map_cons, List.cons.injEq] at hf
        obtain ⟨hname, hf'⟩ := hf
        obtain ⟨hn, hc, hcl'⟩ := coherentList_cons fs p n t es' hcl
        subst hname
        cases t with
        | file s =>
          obtain ⟨hnotdir, hfile, hsize⟩ := coherent_file fs _ s hc
          have hgfs : rcutils_get_file_size fs (p ++ RCUTILS_PATH_DELIMITER ++ name) = s := by
            simp [rcutils_get_file_size, hfile, hsize]
          obtain ⟨newNodes, m2, pu2, sk2, hscan, hwl, hdep⟩ :=
            ih es' tail (dir_size + s)
              (deallocate ⟨m.ctr + 1, m.ctr :: m.live, m.deallocs⟩ (some m.ctr)) pu sk hf' hcl'
          refine ⟨newNodes, m2, pu2, sk2, ?_, by simpa [allowedSubs] using hwl, hdep⟩
          simp only [scanEntries, hnd, if_true, join_allTrue, hnotdir, Bool.false_eq_true,
            if_false, hgfs]
          rw [hscan]
          simp [dirFilesSum, Nat.add_assoc]
        | dir es2 =>
          obtain ⟨hisdir, _, _⟩ := coherent_dir fs _ es2 hc
          by_cases hg : k = 0 ∨ d + 1 ≤ k
          · obtain ⟨newNodes, m2, pu2, sk2, hscan, hwl, hdep⟩ :=
              ih es'
                (⟨m.ctr + 1, some (m.ctr, p ++ RCUTILS_PATH_DELIMITER ++ name), d + 1⟩ :: tail)
                dir_size ⟨m.ctr + 2, (m.ctr + 1) :: m.ctr :: m.live, m.deallocs⟩
                (pu ++ [d + 1]) sk hf' hcl'
            refine ⟨newNodes ++
              [⟨m.ctr + 1, some (m.ctr, p ++ RCUTILS_PATH_DELIMITER ++ name), d + 1⟩],
              m2, pu2, sk2, ?_, ?_, ?_⟩
            · simp only [scanEntries, hnd, if_true, join_allTrue, hisdir, if_pos hg,
                allocate_allTrue]
              rw [hscan]
              simp [dirFilesSum, List.append_assoc]
            · have hall : allowedSubs k d ((name, FTree.dir es2) :: es') =
                  FTree.dir es2 :: allowedSubs k d es' := by
                simp [allowedSubs, hg]
              rw [hall, List.reverse_cons]
              refine wlCoh_append fs newNodes _ _ _ hwl ?_
              simp [wlCoh, hc]
            · intro nd hmem
              rcases List.mem_append.mp hmem with hmem | hmem
              · exact hdep nd hmem
              · simp only [List.mem_singleton] at hmem
                rw [hmem]
          · obtain ⟨newNodes, m2, pu2, sk2, hscan, hwl, hdep⟩ :=
              ih es' tail dir_size ⟨m.ctr + 1, m.ctr :: m.live, m.deallocs⟩
                pu (sk ++ [m.ctr]) hf' hcl'
            refine ⟨newNodes, m2, pu2, sk2, ?_, ?_, hdep⟩
            · simp only [scanEntries, hnd, if_true, join_allTrue, hisdir, if_neg hg]
              rw [hscan]
              simp [dirFilesSum]
            · have hall : allowedSubs k d ((name, FTree.dir es2) :: es') =
                  allowedSubs k d es' := by
                simp [allowedSubs, hg]
              rw [hall]
              exact hwl
    · have hnd' : nondot name = false := by
        simpa using hnd
      rw [List.filter_cons_of_neg (by simp [hnd'])] at hf
      simp only [scanEntries, hnd', Bool.false_eq_true, if_false]
      exact ih es tail dir_size m pu sk hf hcl

theorem walk_coherent (fs : FS) (k : Nat) :
    ∀ (fuel : Nat) (ws : List dir_list_t) (ts : List FTree) (dir_size : Nat)
      (m : MemState) (pu sk : List Nat),
      wlCoh fs ws ts = true →
      sumFuelZip k ws ts ≤ fuel →
      ∃ m2 pu2 sk2,
        walkLoop fs allTrue k fuel ws dir_size m pu sk =
          some ⟨dir_size + sumSpecZip k ws ts, m2, pu2, sk2⟩ := by
  intro fuel
  induction fuel with
  | zero =>
    intro ws ts dir_size m pu sk hco hfu
    cases ws with
    | nil =>
      have hts := wlCoh_nil_left fs ts hco
      subst hts
      exact ⟨m, pu, sk, by simp [walkLoop, sumSpecZip]⟩
    | cons nd ws' =>
      cases ts with
      | nil => simp [wlCoh] at hco
      | cons t ts' =>
        obtain ⟨pid, p, es, hp, ht, hc, hco'⟩ := wlCoh_cons fs nd ws' t ts' hco
        subst ht
        rw [sumFuelZip, expandCount_dir] at hfu
        omega
  | succ fuel ih =>
    intro ws ts dir_size m pu sk hco hfu
    cases ws with
    | nil =>
      have hts := wlCoh_nil_left fs ts hco
      subst hts
      exact ⟨m, pu, sk, by simp [walkLoop, sumSpecZip]⟩
    | cons nd ws' =>
      cases ts with
      | nil => simp [wlCoh] at hco
      | cons t ts' =>
        obtain ⟨pid, p, es, hp, ht, hc, hco'⟩ := wlCoh_cons fs nd ws' t ts' hco
        subst ht
        obtain ⟨hisdir, ⟨names, hl, hfil⟩, hcl⟩ := coherent_dir fs p es hc
        obtain ⟨newNodes, m2, pu2, sk2, hscan, hwl, hdep⟩ :=
          scan_coherent fs k p nd.depth names es ws' dir_size m pu sk hfil hcl
        have hlen : newNodes.length = ((allowedSubs k nd.depth es).reverse).length :=
          wlCoh_length fs newNodes _ hwl
        have hcoApp : wlCoh fs (newNodes ++ ws')
            ((allowedSubs k nd.depth es).reverse ++ ts') = true :=
          wlCoh_append fs newNodes ws' _ ts' hwl hco'
        have hfz : sumFuelZip k (newNodes ++ ws')
            ((allowedSubs k nd.depth es).reverse ++ ts') =
            sumFuelAt k (nd.depth + 1) (allowedSubs k nd.depth es) +
              sumFuelZip k ws' ts' := by
          rw [sumFuelZip_append k newNodes _ ws' ts' hlen,
            sumFuelZip_const_depth k (nd.depth + 1) newNodes _ hlen hdep,
            sumFuelAt_reverse]
        have hfu' : sumFuelZip k (newNodes ++ ws')
            ((allowedSubs k nd.depth es).reverse ++ ts') ≤ fuel := by
          rw [hfz]
          rw [sumFuelZip, expandCount_dir] at hfu
          omega
        obtain ⟨m3, pu3, sk3, hwalk⟩ :=
          ih (newNodes ++ ws') ((allowedSubs k nd.depth es).reverse ++ ts')
            (dir_size + dirFilesSum es)
            (deallocate (deallocate m2 (some pid)) (some nd.nodeId)) pu2 sk2 hcoApp hfu'
        refine ⟨m3, pu3, sk3, ?_⟩
        simp only [walkLoop, hp, hl, hscan]
        rw [hwalk]
        have hsz : sumSpecZip k (newNodes ++ ws')
            ((allowedSubs k nd.depth es).reverse ++ ts') =
            sumSpecAt k (nd.depth + 1) (allowedSubs k nd.depth es) +
              sumSpecZip k ws' ts' := by
          rw [sumSpecZip_append k newNodes _ ws' ts' hlen,
            sumSpecZip_const_depth k (nd.depth + 1) newNodes _ hlen hdep,
            sumSpecAt_reverse]
        have hXY : dir_size + dirFilesSum es + sumSpecZip k (newNodes ++ ws')
            ((allowedSubs k nd.depth es).reverse ++ ts') =
            dir_size + sumSpecZip k (nd :: ws') (FTree.dir es :: ts') := by
          rw [hsz, sumSpecZip]
          have hsp : specSize k nd.depth (FTree.dir es) =
              dirFilesSum es + sumSpecAt k (nd.depth + 1) (allowedSubs k nd.depth es) := by
            rw [specSize, specSizeList_decomp]
          omega
        rw [hXY]

theorem with_recursion_coherent (fs : FS) (root : String) (es : List (String × FTree))
    (k fuel : Nat) (m0 : MemState)
    (hcoh : coherent fs root (FTree.dir es) = true)
    (hfuel : expandCount k 1 (FTree.dir es) ≤ fuel) :
    ∃ m2 pu2 sk2,
      rcutils_calculate_directory_size_with_recursion fs allTrue root k fuel m0 =
        some ⟨specSize k 1 (FTree.dir es), m2, pu2, sk2⟩ := by
  have hwl : wlCoh fs [⟨m0.ctr, some (m0.ctr + 1, root), 1⟩] [FTree.dir es] = true := by
    simp [wlCoh, hcoh]
  have hfu : sumFuelZip k [⟨m0.ctr, some (m0.ctr + 1, root), 1⟩] [FTree.dir es] ≤ fuel := by
    simpa [sumFuelZip] using hfuel
  obtain ⟨m2, pu2, sk2, hwalk⟩ :=
    walk_coherent fs k fuel [⟨m0.ctr, some (m0.ctr + 1, root), 1⟩] [FTree.dir es] 0
      ⟨m0.ctr + 1 + 1, (m0.ctr + 1) :: m0.ctr :: m0.live, m0.deallocs⟩ [] [] hwl hfu
  refine ⟨m2, pu2, sk2, ?_⟩
  simp only [rcutils_calculate_directory_size_with_recursion, allocate_allTrue,
    strdup_allTrue]
  rw [hwalk]
  simp [sumSpecZip]

theorem scan_pushed_guard (fs : FS) (f : Nat → Bool) (k : Nat) (dp : String) (d : Nat) :
    ∀ (names : List String) (tail : List dir_list_t) (dir_size : Nat) (m : MemState)
      (pu sk : List Nat),
      (∀ x ∈ pu, k = 0 ∨ x ≤ k) →
      ∀ x ∈ (scanEntries fs f k dp d names tail dir_size m pu sk).pushedOf,
        k = 0 ∨ x ≤ k := by
  intro names
  induction names with
  | nil =>
    intro tail dir_size m pu sk hpu
    simpa [scanEntries, ScanResult.pushedOf] using hpu
  | cons name names ih =>
    intro tail dir_size m pu sk hpu
    by_cases hnd : nondot name = true
    · simp only [scanEntries, hnd, if_true]
      cases hj : rcutils_join_path dp name f m with
      | mk o m1 =>
        cases o with
        | none => simpa [ScanResult.pushedOf] using hpu
        | some pr =>
          obtain ⟨pathId, fp⟩ := pr
          by_cases hdir : fs.isDir fp = true
          · simp only [hdir, if_true]
            by_cases hg : k = 0 ∨ d + 1 ≤ k
            · simp only [if_pos hg]
              cases ha : allocate f m1 with
              | mk o2 m2 =>
                cases o2 with
                | none => simpa [ScanResult.pushedOf] using hpu
                | some nid =>
                  apply ih
                  intro x hx
                  rcases List.mem_append.mp hx with hx | hx
                  · exact hpu x hx
                  · simp only [List.mem_singleton] at hx
                    subst hx
                    rcases hg with hg | hg
                    · exact Or.inl hg
                    · exact Or.inr hg
            · simp only [if_neg hg]
              exact ih tail dir_size m1 pu (sk ++ [pathId]) hpu
          · simp only [Bool.not_eq_true] at hdir
            simp only [hdir, Bool.false_eq_true, if_false]
            exact ih tail _ _ pu sk hpu
    · simp only [Bool.not_eq_true] at hnd
      simp only [scanEntries, hnd, Bool.false_eq_true, if_false]
      exact ih tail dir_size m pu sk hpu

theorem walk_pushed_guard (fs : FS) (f : Nat → Bool) (k : Nat) :
    ∀ (fuel : Nat) (ws : List dir_list_t) (dir_size : Nat) (m : MemState)
      (pu sk : List Nat) (out : WalkOut),
      (∀ x ∈ pu, k = 0 ∨ x ≤ k) →
      walkLoop fs f k fuel ws dir_size m pu sk = some out →
      ∀ x ∈ out.pushed, k = 0 ∨ x ≤ k := by
  intro fuel
  induction fuel with
  | zero =>
    intro ws dir_size m pu sk out hpu hw
    cases ws with
    | nil =>
      have := Option.some_inj.mp hw
      subst this
      simpa using hpu
    | cons hd rest => simp [walkLoop] at hw
  | succ fuel ih =>
    intro ws dir_size m pu sk out hpu hw
    cases ws with
    | nil =>
      have := Option.some_inj.mp hw
      subst this
      simpa using hpu
    | cons hd rest =>
      simp only [walkLoop] at hw
      cases hp : hd.path with
      | none =>
        simp only [hp] at hw
        have := Option.some_inj.mp hw
        subst this
        simpa using hpu
      | some pr =>
        obtain ⟨pathId, p⟩ := pr
        simp only [hp] at hw
        cases hl : fs.listDir p with
        | none =>
          simp only [hl] at hw
          have := Option.some_inj.mp hw
          subst this
          simpa using hpu
        | some names =>
          simp only [hl] at hw
          have hsg := scan_pushed_guard fs f k p hd.depth names rest dir_size m pu sk hpu
          cases hs : scanEntries fs f k p hd.depth names rest dir_size m pu sk with
          | fail tail size2 m2 pu2 sk2 =>
            simp only [hs] at hw
            rw [hs] at hsg
            have := Option.some_inj.mp hw
            subst this
            simpa [ScanResult.pushedOf] using hsg
          | ok tail size2 m2 pu2 sk2 =>
            simp only [hs] at hw
            rw [hs] at hsg
            simp only [ScanResult.pushedOf] at hsg
            exact ih tail size2 _ pu2 sk2 out hsg hw

theorem with_recursion_pushed_guard (fs : FS) (f : Nat → Bool) (root : String)
    (k fuel : Nat) (m0 : MemState) (out : WalkOut)
    (hw : rcutils_calculate_directory_size_with_recursion fs f root k fuel m0 = some out) :
    ∀ x ∈ out.pushed, k = 0 ∨ x ≤ k := by
  simp only [rcutils_calculate_directory_size_with_recursion] at hw
  cases ha : allocate f m0 with
  | mk o m1 =>
    simp only [ha] at hw
    cases o with
    | none =>
      have := Option.some_inj.mp hw
      subst this
      simp
    | some nodeId =>
      cases hs : rcutils_strdup root f m1 with
      | mk o2 m2 =>
        simp only [hs] at hw
        cases o2 with
        | none =>
          have := Option.some_inj.mp hw
          subst this
          simp
        | some pr =>
          obtain ⟨pathId, p⟩ := pr
          exact walk_pushed_guard fs f k fuel _ 0 m2 [] [] out (by simp) hw

theorem sumLevelsList_zero : ∀ es : List (String × FTree),
    sumLevelsList 0 es = dirFilesSum es := by
  intro es
  induction es with
  | nil => simp [sumLevelsList, dirFilesSum]
  | cons pr r ih =>
    obtain ⟨n, t⟩ := pr
    cases t with
    | file s => simp [sumLevelsList, dirFilesSum, ih]
    | dir es2 => simp [sumLevelsList, dirFilesSum, ih, sumLevelsUpTo]

theorem specSizeList_levels : ∀ (c d : Nat) (es : List (String × FTree)), 1 ≤ d →
    specSizeList (d + c) d es = sumLevelsList c es := by
  intro c
  induction c with
  | zero =>
    intro d es hd
    rw [Nat.add_zero]
    induction es with
    | nil => simp [specSizeList, sumLevelsList]
    | cons pr r ihe =>
      obtain ⟨n, t⟩ := pr
      cases t with
      | file s => simp [specSizeList, sumLevelsList, ihe]
      | dir es2 =>
        have h1 : ¬(d = 0) := by omega
        have h2 : ¬(d + 1 ≤ d) := by omega
        simp [specSizeList, sumLevelsList, h1, h2, ihe, sumLevelsUpTo]
  | succ c ihc =>
    intro d es hd
    induction es with
    | nil => simp [specSizeList, sumLevelsList]
    | cons pr r ihe =>
      obtain ⟨n, t⟩ := pr
      cases t with
      | file s => simp [specSizeList, sumLevelsList, ihe]
      | dir es2 =>
        have hg : d + (c + 1) = 0 ∨ d + 1 ≤ d + (c + 1) := by omega
        have hrec : specSize (d + (c + 1)) (d + 1) (FTree.dir es2) =
            sumLevelsUpTo (c + 1) (FTree.dir es2) := by
          rw [specSize]
          have hdd : d + (c + 1) = (d + 1) + c := by omega
          rw [hdd, ihc (d + 1) es2 (by omega), sumLevelsUpTo]
        simp [specSizeList, sumLevelsList, if_pos hg, ihe, hrec]

theorem sumLevelsUpTo_succ_dir (c : Nat) (es : List (String × FTree)) :
    sumLevelsUpTo (c + 1) (FTree.dir es) = sumLevelsList c es := by
  simp [sumLevelsUpTo]

theorem filesAtDepth_one_dir (es : List (String × FTree)) :
    filesAtDepth 1 (FTree.dir es) = dirFilesSum es := by
  simp [filesAtDepth]

theorem filesAtDepth_two_dir (j : Nat) (es : List (String × FTree)) :
    filesAtDepth (j + 1 + 1) (FTree.dir es) = filesAtDepthList (j + 1) es := by
  simp [filesAtDepth]

theorem sumLevelsUpTo_succ : ∀ (c : Nat) (es : List (String × FTree)),
    sumLevelsUpTo (c + 1) (FTree.dir es) =
      sumLevelsUpTo c (FTree.dir es) + filesAtDepth (c + 1) (FTree.dir es) := by
  intro c
  induction c with
  | zero =>
    intro es
    simp [sumLevelsUpTo, sumLevelsList_zero, filesAtDepth]
  | succ c ihc =>
    intro es
    induction es with
    | nil =>
      rw [sumLevelsUpTo_succ_dir, sumLevelsUpTo_succ_dir, filesAtDepth_two_dir]
      simp [sumLevelsList, filesAtDepthList]
    | cons pr r ihe =>
      obtain ⟨n, t⟩ := pr
      rw [sumLevelsUpTo_succ_dir, sumLevelsUpTo_succ_dir, filesAtDepth_two_dir] at ihe ⊢
      cases t with
      | file s =>
        simp only [sumLevelsList, filesAtDepthList] at ihe ⊢
        omega
      | dir es2 =>
        have hsub := ihc es2
        rw [sumLevelsUpTo_succ_dir] at hsub
        simp only [sumLevelsList, filesAtDepthList] at ihe ⊢
        rw [sumLevelsUpTo_succ_dir]
        omega

theorem sumLevels_eq_range (c : Nat) (es : List (String × FTree)) :
    sumLevelsUpTo c (FTree.dir es) =
      Finset.sum (Finset.range c) (fun j => filesAtDepth (j + 1) (FTree.dir es)) := by
  induction c with
  | zero => simp [sumLevelsUpTo]
  | succ c ih => rw [Finset.sum_range_succ, ← ih, sumLevelsUpTo_succ c es]

/-- C1: on a coherent flat directory — every non-dot entry is a regular file
of the given size — the walker with `max_depth = 0` returns the sum of the
file sizes; for an empty directory the sum is 0. -/
theorem walker_sums_flat_directory (fs : FS) (root : String) (l : List (String × Nat))
    (fuel : Nat) (m0 : MemState)
    (hcoh : coherent fs root (fileTree l) = true) (hfuel : 1 ≤ fuel) :
    ∃ out, rcutils_calculate_directory_size_with_recursion fs allTrue root 0 fuel m0 =
        some out ∧ out.size = (l.map Prod.snd).sum := by
  have hcoh2 :
      coherent fs root (FTree.dir (l.map (fun pr => (pr.1, FTree.file pr.2)))) = true :=
    hcoh
  have hcnt : ∀ r : List (String × Nat),
      expandCountList 0 1 (r.map (fun pr => (pr.1, FTree.file pr.2))) = 0 := by
    intro r
    induction r with
    | nil => rfl
    | cons pr rr ih => simp [expandCountList, ih]
  have hexp : expandCount 0 1 (FTree.dir (l.map (fun pr => (pr.1, FTree.file pr.2)))) ≤
      fuel := by
    rw [expandCount, hcnt l]
    omega
  have hsum : ∀ r : List (String × Nat),
      specSizeList 0 1 (r.map (fun pr => (pr.1, FTree.file pr.2))) =
        (r.map Prod.snd).sum := by
    intro r
    induction r with
    | nil => simp [specSizeList]
    | cons pr rr ih =>
      obtain ⟨n, s⟩ := pr
      simp [specSizeList, ih]
  obtain ⟨m2, pu2, sk2, heq⟩ :=
    with_recursion_coherent fs root (l.map (fun pr => (pr.1, FTree.file pr.2))) 0 fuel m0
      hcoh2 hexp
  refine ⟨⟨specSize 0 1 (FTree.dir (l.map (fun pr => (pr.1, FTree.file pr.2)))),
    m2, pu2, sk2⟩, heq, ?_⟩
  show specSize 0 1 (FTree.dir (l.map (fun pr => (pr.1, FTree.file pr.2)))) =
    (l.map Prod.snd).sum
  rw [specSize, hsum l]

/-- C2: depth limiting is exact.  Against a coherent tree, the walker with
`max_depth = k ≥ 1` returns exactly the sum of the sizes of the files lying
in directories at depths 1 through k — files at depth exactly `k` are
counted, files at depth `k + 1` are not — and every worklist node pushed
during the traversal has depth at most `k` (directories that would exceed
`k` are never pushed). -/
theorem walker_depth_limit_exact (fs : FS) (root : String) (es : List (String × FTree))
    (k fuel : Nat) (m0 : MemState) (hk : 1 ≤ k)
    (hcoh : coherent fs root (FTree.dir es) = true)
    (hfuel : expandCount k 1 (FTree.dir es) ≤ fuel) :
    ∃ out, rcutils_calculate_directory_size_with_recursion fs allTrue root k fuel m0 =
        some out ∧
      out.size =
        Finset.sum (Finset.range k) (fun j => filesAtDepth (j + 1) (FTree.dir es)) ∧
      ∀ x ∈ out.pushed, x ≤ k := by
  obtain ⟨m2, pu2, sk2, heq⟩ := with_recursion_coherent fs root es k fuel m0 hcoh hfuel
  refine ⟨⟨specSize k 1 (FTree.dir es), m2, pu2, sk2⟩, heq, ?_, ?_⟩
  · show specSize k 1 (FTree.dir es) = _
    obtain ⟨c, rfl⟩ : ∃ c, k = 1 + c := ⟨k - 1, by omega⟩
    rw [specSize, specSizeList_levels c 1 es (le_refl 1)]
    have hup : sumLevelsUpTo (1 + c) (FTree.dir es) = sumLevelsList c es := by
      have h1c : 1 + c = c + 1 := by omega
      rw [h1c, sumLevelsUpTo]
    rw [← hup, sumLevels_eq_range]
  · intro x hx
    have hg := with_recursion_pushed_guard fs allTrue root k fuel m0 _ heq x hx
    rcases hg with hg | hg
    · omega
    · exact hg

/-- C5: when the path is a directory, the convenience entry point returns
exactly the walker's result at `max_depth = 1`; consequently, against a
coherent tree it sums only the regular files directly inside the root and
never descends into a subdirectory. -/
theorem calculate_directory_size_eq_depth_one (fs : FS) (f : Nat → Bool) (p : String)
    (fuel : Nat) (m0 : MemState) (h : fs.isDir p = true) :
    rcutils_calculate_directory_size fs f p fuel m0 =
      rcutils_calculate_directory_size_with_recursion fs f p 1 fuel m0 ∧
    (∀ es, coherent fs p (FTree.dir es) = true → 1 ≤ fuel →
      ∃ out, rcutils_calculate_directory_size fs allTrue p fuel m0 = some out ∧
        out.size = dirFilesSum es) := by
  constructor
  · simp [rcutils_calculate_directory_size, h]
  · intro es hcoh hfuel
    have hsubs : ∀ es2 : List (String × FTree), allowedSubs 1 1 es2 = [] := by
      intro es2
      induction es2 with
      | nil => rfl
      | cons pr r ih =>
        obtain ⟨n, t⟩ := pr
        cases t with
        | file s => simp [allowedSubs, ih]
        | dir es3 =>
          have hng : ¬((1 : Nat) = 0 ∨ 1 + 1 ≤ 1) := by omega
          simp [allowedSubs, if_neg hng, ih]
    have hexp : expandCount 1 1 (FTree.dir es) ≤ fuel := by
      rw [expandCount_dir, hsubs es]
      simpa [sumFuelAt] using hfuel
    obtain ⟨m2, pu2, sk2, heq⟩ := with_recursion_coherent fs p es 1 fuel m0 hcoh hexp
    refine ⟨⟨specSize 1 1 (FTree.dir es), m2, pu2, sk2⟩, ?_, ?_⟩
    · rw [rcutils_calculate_directory_size, if_pos h, heq]
    · show specSize 1 1 (FTree.dir es) = dirFilesSum es
      have h2 : specSizeList 1 1 es = sumLevelsList 0 es := by
        simpa using specSizeList_levels 0 1 es (le_refl 1)
      rw [specSize, h2, sumLevelsList_zero]

theorem walker_sums_flat_directory_witness :
    ∃ out, rcutils_calculate_directory_size_with_recursion fsFlat allTrue "r" 0 1 initMem =
        some out ∧ out.size = ([("a", 100), ("b", 50)].map Prod.snd).sum :=
  walker_sums_flat_directory fsFlat "r" [("a", 100), ("b", 50)] 1 initMem
    (by decide) (by decide)

theorem walker_depth_limit_exact_witness :
    ∃ out, rcutils_calculate_directory_size_with_recursion fsDeep allTrue "r" 2 3 initMem =
        some out ∧
      out.size = Finset.sum (Finset.range 2) (fun j => filesAtDepth (j + 1)
        (FTree.dir [("a", FTree.file 100),
          ("b", FTree.dir [("c", FTree.file 50),
            ("d", FTree.dir [("e", FTree.file 25)])])])) ∧
      ∀ x ∈ out.pushed, x ≤ 2 :=
  walker_depth_limit_exact fsDeep "r"
    [("a", FTree.file 100),
      ("b", FTree.dir [("c", FTree.file 50), ("d", FTree.dir [("e", FTree.file 25)])])]
    2 3 initMem (by decide) (by decide) (by decide)

theorem calculate_directory_size_eq_depth_one_witness :
    (rcutils_calculate_directory_size fsDeep allTrue "r" 3 initMem =
      rcutils_calculate_directory_size_with_recursion fsDeep allTrue "r" 1 3 initMem) ∧
    ∃ out, rcutils_calculate_directory_size fsDeep allTrue "r" 3 initMem = some out ∧
      out.size = dirFilesSum
        [("a", FTree.file 100),
          ("b", FTree.dir [("c", FTree.file 50), ("d", FTree.dir [("e", FTree.file 25)])])] := by
  obtain ⟨h1, h2⟩ :=
    calculate_directory_size_eq_depth_one fsDeep allTrue "r" 3 initMem (by decide)
  exact ⟨h1, h2 _ (by decide) (by decide)⟩

/-!
## C9: path strings of depth-skipped directories are never released
-/

theorem memWF_ctr_le (m : MemState) (c : Nat) (h : MemWF m) (hc : m.ctr ≤ c) :
    MemWF ⟨c, m.live, m.deallocs⟩ := by
  obtain ⟨h1, h2⟩ := h
  exact ⟨fun i hi => lt_of_lt_of_le (h1 i hi) hc,
    fun i hi => lt_of_lt_of_le (h2 i hi) hc⟩

theorem memWF_deallocate_some (m : MemState) (i : Nat) (h : MemWF m) (hi : i < m.ctr) :
    MemWF (deallocate m (some i)) := by
  obtain ⟨h1, h2⟩ := h
  constructor
  · intro j hj
    exact h1 j (List.mem_of_mem_erase hj)
  · intro j hj
    simp only [deallocate, List.mem_append, List.mem_singleton] at hj
    rcases hj with hj | hj
    · exact h2 j hj
    · have hji : j = i := Option.some_inj.mp hj
      subst hji
      exact hi

theorem mk_ctr (a : Nat) (b : List Nat) (c : List (Option Nat)) :
    (⟨a, b, c⟩ : MemState).ctr = a := rfl

theorem mk_live (a : Nat) (b : List Nat) (c : List (Option Nat)) :
    (⟨a, b, c⟩ : MemState).live = b := rfl

theorem mk_deallocs (a : Nat) (b : List Nat) (c : List (Option Nat)) :
    (⟨a, b, c⟩ : MemState).deallocs = c := rfl

theorem scan_mem_inv (fs : FS) (f : Nat → Bool) (k : Nat) (dp : String) (d : Nat) :
    ∀ (names : List String) (tail : List dir_list_t) (dir_size : Nat) (m : MemState)
      (pu sk : List Nat),
      MemWF m →
      (∀ i ∈ idsOfList tail, i < m.ctr) →
      (∀ j ∈ sk, j < m.ctr ∧ j ∈ m.live ∧ (some j : Option Nat) ∉ m.deallocs ∧
        j ∉ idsOfList tail) →
      m.ctr ≤ (scanEntries fs f k dp d names tail dir_size m pu sk).memOf.ctr ∧
      MemWF (scanEntries fs f k dp d names tail dir_size m pu sk).memOf ∧
      (∀ i ∈ idsOfList (scanEntries fs f k dp d names tail dir_size m pu sk).tailOf,
        i < (scanEntries fs f k dp d names tail dir_size m pu sk).memOf.ctr) ∧
      (∀ j ∈ (scanEntries fs f k dp d names tail dir_size m pu sk).skippedOf,
        j ∈ sk ∨ m.ctr ≤ j) ∧
      (∀ j ∈ (scanEntries fs f k dp d names tail dir_size m pu sk).skippedOf,
        j < (scanEntries fs f k dp d names tail dir_size m pu sk).memOf.ctr ∧
        j ∈ (scanEntries fs f k dp d names tail dir_size m pu sk).memOf.live ∧
        (some j : Option Nat) ∉
          (scanEntries fs f k dp d names tail dir_size m pu sk).memOf.deallocs ∧
        j ∉ idsOfList (scanEntries fs f k dp d names tail dir_size m pu sk).tailOf) := by
  intro names
  induction names with
  | nil =>
    intro tail dir_size m pu sk hwf hids hsk
    simp only [scanEntries, ScanResult.memOf, ScanResult.tailOf, ScanResult.skippedOf]
    exact ⟨le_refl _, hwf, hids, fun j hj => Or.inl hj, hsk⟩
  | cons name names ih =>
    intro tail dir_size m pu sk hwf hids hsk
    by_cases hnd : nondot name = true
    · cases hf : f m.ctr with
      | false =>
        simp only [scanEntries, hnd, if_true, rcutils_join_path, allocate, hf,
          Bool.false_eq_true, if_false, ScanResult.memOf, ScanResult.tailOf,
          ScanResult.skippedOf, mk_ctr, mk_live, mk_deallocs]
        refine ⟨by omega, memWF_ctr_le m _ hwf (by omega), ?_,
          fun j hj => Or.inl hj, ?_⟩
        · intro i hi
          have := hids i hi
          omega
        · intro j hj
          obtain ⟨hj1, hj2, hj3, hj4⟩ := hsk j hj
          exact ⟨by omega, hj2, hj3, hj4⟩
      | true =>
        simp only [scanEntries, hnd, if_true, rcutils_join_path, allocate, hf, if_true]
        by_cases hdir : fs.isDir (dp ++ RCUTILS_PATH_DELIMITER ++ name) = true
        · simp only [hdir, if_true]
          by_cases hg : k = 0 ∨ d + 1 ≤ k
          · simp only [if_pos hg]
            cases hf2 : f (m.ctr + 1) with
            | false =>
              simp only [allocate, mk_ctr, hf2, Bool.false_eq_true, if_false,
                ScanResult.memOf, ScanResult.tailOf, ScanResult.skippedOf,
                mk_live, mk_deallocs]
              refine ⟨by omega, ?_, ?_, fun j hj => Or.inl hj, ?_⟩
              · obtain ⟨h1, h2⟩ := hwf
                constructor
                · intro i hi
                  simp only [mk_live, List.mem_cons] at hi
                  simp only [mk_ctr]
                  rcases hi with hi | hi
                  · omega
                  · have := h1 i hi
                    omega
                · intro i hi
                  simp only [mk_deallocs] at hi
                  simp only [mk_ctr]
                  have := h2 i hi
                  omega
              · intro i hi
                have := hids i hi
                omega
              · intro j hj
                obtain ⟨hj1, hj2, hj3, hj4⟩ := hsk j hj
                exact ⟨by omega, List.mem_cons_of_mem _ hj2, hj3, hj4⟩
            | true =>
              simp only [allocate, mk_ctr, mk_live, mk_deallocs, hf2, if_true]
              have hwf2 : MemWF ⟨m.ctr + 1 + 1, (m.ctr + 1) :: m.ctr :: m.live,
                  m.deallocs⟩ := by
                obtain ⟨h1, h2⟩ := hwf
                constructor
                · intro i hi
                  simp only [mk_live, List.mem_cons] at hi
                  simp only [mk_ctr]
                  rcases hi with hi | hi | hi
                  · omega
                  · omega
                  · have := h1 i hi
                    omega
                · intro i hi
                  simp only [mk_deallocs] at hi
                  simp only [mk_ctr]
                  have := h2 i hi
                  omega
              have hids2 : ∀ i ∈ idsOfList
                  (⟨m.ctr + 1, some (m.ctr, dp ++ RCUTILS_PATH_DELIMITER ++ name),
                    d + 1⟩ :: tail), i < (m.ctr + 1 + 1 : Nat) := by
                intro i hi
                simp only [idsOfList, ndIds, List.mem_append, List.mem_cons,
                  Option.map_some, Option.toList_some, List.mem_singleton] at hi
                rcases hi with (hi | hi) | hi
                · omega
                · simp at hi
                  omega
                · have := hids i hi
                  omega
              have hsk2 : ∀ j ∈ sk, j < (m.ctr + 1 + 1 : Nat) ∧
                  j ∈ ((m.ctr + 1) :: m.ctr :: m.live) ∧
                  (some j : Option Nat) ∉ m.deallocs ∧
                  j ∉ idsOfList
                    (⟨m.ctr + 1, some (m.ctr, dp ++ RCUTILS_PATH_DELIMITER ++ name),
                      d + 1⟩ :: tail) := by
                intro j hj
                obtain ⟨hj1, hj2, hj3, hj4⟩ := hsk j hj
                refine ⟨by omega, by simp [hj2], hj3, ?_⟩
                intro hc
                simp only [idsOfList, ndIds, List.mem_append, List.mem_cons,
                  Option.map_some, Option.toList_some, List.mem_singleton] at hc
                rcases hc with (hc | hc) | hc
                · omega
                · simp at hc
                  omega
                · exact hj4 hc
              obtain ⟨ihc1, ihc2, ihc3, ihc4, ihc5⟩ :=
                ih (⟨m.ctr + 1, some (m.ctr, dp ++ RCUTILS_PATH_DELIMITER ++ name),
                    d + 1⟩ :: tail) dir_size
                  ⟨m.ctr + 1 + 1, (m.ctr + 1) :: m.ctr :: m.live, m.deallocs⟩
                  (pu ++ [d + 1]) sk hwf2 hids2 hsk2
              simp only [mk_ctr] at ihc1
              refine ⟨by omega, ihc2, ihc3, ?_, ihc5⟩
              intro j hj
              rcases ihc4 j hj with hj2 | hj2
              · exact Or.inl hj2
              · simp only [mk_ctr] at hj2
                exact Or.inr (by omega)
          · simp only [if_neg hg]
            have hwf2 : MemWF ⟨m.ctr + 1, m.ctr :: m.live, m.deallocs⟩ := by
              obtain ⟨h1, h2⟩ := hwf
              constructor
              · intro i hi
                simp only [mk_live, List.mem_cons] at hi
                simp only [mk_ctr]
                rcases hi with hi | hi
                · omega
                · have := h1 i hi
                  omega
              · intro i hi
                simp only [mk_deallocs] at hi
                simp only [mk_ctr]
                have := h2 i hi
                omega
            have hids2 : ∀ i ∈ idsOfList tail, i < (m.ctr + 1 : Nat) := by
              intro i hi
              have := hids i hi
              omega
            have hsk2 : ∀ j ∈ sk ++ [m.ctr], j < (m.ctr + 1 : Nat) ∧
                j ∈ (m.ctr :: m.live) ∧ (some j : Option Nat) ∉ m.deallocs ∧
                j ∉ idsOfList tail := by
              intro j hj
              rcases List.mem_append.mp hj with hj | hj
              · obtain ⟨hj1, hj2, hj3, hj4⟩ := hsk j hj
                exact ⟨by omega, List.mem_cons_of_mem _ hj2, hj3, hj4⟩
              · simp only [List.mem_singleton] at hj
                subst hj
                refine ⟨by omega, by simp, ?_, ?_⟩
                · intro hc
                  have := hwf.2 m.ctr hc
                  omega
                · intro hc
                  have := hids m.ctr hc
                  omega
            obtain ⟨ihc1, ihc2, ihc3, ihc4, ihc5⟩ :=
              ih tail dir_size ⟨m.ctr + 1, m.ctr :: m.live, m.deallocs⟩
                pu (sk ++ [m.ctr]) hwf2 hids2 hsk2
            simp only [mk_ctr] at ihc1
            refine ⟨by omega, ihc2, ihc3, ?_, ihc5⟩
            intro j hj
            rcases ihc4 j hj with hj2 | hj2
            · rcases List.mem_append.mp hj2 with hj3 | hj3
              · exact Or.inl hj3
              · simp only [List.mem_singleton] at hj3
                exact Or.inr (by omega)
            · simp only [mk_ctr] at hj2
              exact Or.inr (by omega)
        · simp only [Bool.not_eq_true] at hdir
          simp only [hdir, Bool.false_eq_true, if_false]
          have heq : deallocate ⟨m.ctr + 1, m.ctr :: m.live, m.deallocs⟩ (some m.ctr) =
              ⟨m.ctr + 1, m.live, m.deallocs ++ [some m.ctr]⟩ := by
            simp [deallocate]
          rw [heq]
          have hwf2 : MemWF ⟨m.ctr + 1, m.live, m.deallocs ++ [some m.ctr]⟩ := by
            obtain ⟨h1, h2⟩ := hwf
            constructor
            · intro i hi
              simp only [mk_live] at hi
              simp only [mk_ctr]
              have := h1 i hi
              omega
            · intro i hi
              simp only [mk_deallocs, List.mem_append, List.mem_singleton] at hi
              simp only [mk_ctr]
              rcases hi with hi | hi
              · have := h2 i hi
                omega
              · have := Option.some_inj.mp hi
                omega
          have hids2 : ∀ i ∈ idsOfList tail, i < (m.ctr + 1 : Nat) := by
            intro i hi
            have := hids i hi
            omega
          have hsk2 : ∀ j ∈ sk, j < (m.ctr + 1 : Nat) ∧ j ∈ m.live ∧
              (some j : Option Nat) ∉ m.deallocs ++ [some m.ctr] ∧
              j ∉ idsOfList tail := by
            intro j hj
            obtain ⟨hj1, hj2, hj3, hj4⟩ := hsk j hj
            refine ⟨by omega, hj2, ?_, hj4⟩
            intro hc
            rcases List.mem_append.mp hc with hc | hc
            · exact hj3 hc
            · simp only [List.mem_singleton] at hc
              have := Option.some_inj.mp hc
              omega
          obtain ⟨ihc1, ihc2, ihc3, ihc4, ihc5⟩ :=
            ih tail (dir_size + rcutils_get_file_size fs
                (dp ++ RCUTILS_PATH_DELIMITER ++ name))
              ⟨m.ctr + 1, m.live, m.deallocs ++ [some m.ctr]⟩ pu sk hwf2 hids2 hsk2
          simp only [mk_ctr] at ihc1
          refine ⟨by omega, ihc2, ihc3, ?_, ihc5⟩
          intro j hj
          rcases ihc4 j hj with hj2 | hj2
          · exact Or.inl hj2
          · simp only [mk_ctr] at hj2
            exact Or.inr (by omega)
    · simp only [Bool.not_eq_true] at hnd
      simp only [scanEntries, hnd, Bool.false_eq_true, if_false]
      exact ih tail dir_size m pu sk hwf hids hsk

theorem skipped_safe_free (l : List dir_list_t) (m : MemState) (j : Nat)
    (h2 : j ∈ m.live) (h3 : (some j : Option Nat) ∉ m.deallocs)
    (h4 : j ∉ idsOfList l) :
    j ∈ (free_dir_list l m).live ∧
      (some j : Option Nat) ∉ (free_dir_list l m).deallocs := by
  constructor
  · exact (free_dir_list_live l m j h4).mpr h2
  · rw [free_dir_list_deallocs]
    intro hc
    rcases List.mem_append.mp hc with hc | hc
    · exact h3 hc
    · exact h4 (mem_freeLog l j hc)

theorem walk_skipped_inv (fs : FS) (f : Nat → Bool) (k : Nat) :
    ∀ (fuel : Nat) (ws : List dir_list_t) (dir_size : Nat) (m : MemState)
      (pu sk : List Nat) (out : WalkOut),
      MemWF m →
      (∀ i ∈ idsOfList ws, i < m.ctr) →
      (∀ j ∈ sk, j < m.ctr ∧ j ∈ m.live ∧ (some j : Option Nat) ∉ m.deallocs ∧
        j ∉ idsOfList ws) →
      walkLoop fs f k fuel ws dir_size m pu sk = some out →
      ∀ j ∈ out.skipped, j ∈ out.mem.live ∧ (some j : Option Nat) ∉ out.mem.deallocs := by
  intro fuel
  induction fuel with
  | zero =>
    intro ws dir_size m pu sk out hwf hids hsk hw
    cases ws with
    | nil =>
      have := Option.some_inj.mp hw
      subst this
      intro j hj
      obtain ⟨_, h2, h3, _⟩ := hsk j hj
      exact ⟨h2, h3⟩
    | cons hd rest => simp [walkLoop] at hw
  | succ fuel ihf =>
    intro ws dir_size m pu sk out hwf hids hsk hw
    cases ws with
    | nil =>
      have := Option.some_inj.mp hw
      subst this
      intro j hj
      obtain ⟨_, h2, h3, _⟩ := hsk j hj
      exact ⟨h2, h3⟩
    | cons hd rest =>
      have hhd : ∀ i ∈ ndIds hd, i < m.ctr := fun i hi =>
        hids i (by simp [idsOfList, hi])
      have hrest : ∀ i ∈ idsOfList rest, i < m.ctr := fun i hi =>
        hids i (by simp [idsOfList, hi])
      have hsk' : ∀ j ∈ sk, j < m.ctr ∧ j ∈ m.live ∧
          (some j : Option Nat) ∉ m.deallocs ∧ j ∉ idsOfList rest := by
        intro j hj
        obtain ⟨a, b, c, dd⟩ := hsk j hj
        exact ⟨a, b, c, fun hc => dd (by simp [idsOfList, hc])⟩
      have hskhd : ∀ j ∈ sk, j ∉ ndIds hd := by
        intro j hj hc
        exact (hsk j hj).2.2.2 (by simp [idsOfList, hc])
      simp only [walkLoop] at hw
      cases hp : hd.path with
      | none =>
        simp only [hp] at hw
        have := Option.some_inj.mp hw
        subst this
        intro j hj
        obtain ⟨_, h2, h3, h4⟩ := hsk j hj
        exact skipped_safe_free (hd :: rest) m j h2 h3 h4
      | some pr =>
        obtain ⟨pathId, p⟩ := pr
        have hpid : pathId < m.ctr := hhd pathId (by simp [ndIds, hp])
        have hnid : hd.nodeId < m.ctr := hhd hd.nodeId (by simp [ndIds])
        simp only [hp] at hw
        cases hl : fs.listDir p with
        | none =>
          simp only [hl] at hw
          have := Option.some_inj.mp hw
          subst this
          intro j hj
          obtain ⟨_, h2, h3, h4⟩ := hsk j hj
          exact skipped_safe_free (hd :: rest) m j h2 h3 h4
        | some names =>
          simp only [hl] at hw
          have hinv := scan_mem_inv fs f k p hd.depth names rest dir_size m pu sk
            hwf hrest hsk'
          cases hs : scanEntries fs f k p hd.depth names rest dir_size m pu sk with
          | fail tail2 size2 m2 pu2 sk2 =>
            simp only [hs] at hw
            rw [hs] at hinv
            simp only [ScanResult.memOf, ScanResult.tailOf, ScanResult.skippedOf] at hinv
            obtain ⟨c1, c2, c3, c4, c5⟩ := hinv
            have := Option.some_inj.mp hw
            subst this
            intro j hj
            obtain ⟨d1, d2, d3, d4⟩ := c5 j hj
            have hjnot : j ∉ idsOfList (hd :: tail2) := by
              intro hc
              simp only [idsOfList, List.mem_append] at hc
              rcases hc with hc | hc
              · rcases c4 j hj with hj2 | hj2
                · exact hskhd j hj2 hc
                · have := hhd j hc
                  omega
              · exact d4 hc
            exact skipped_safe_free (hd :: tail2) m2 j d2 d3 hjnot
          | ok tail2 size2 m2 pu2 sk2 =>
            simp only [hs] at hw
            rw [hs] at hinv
            simp only [ScanResult.memOf, ScanResult.tailOf, ScanResult.skippedOf] at hinv
            obtain ⟨c1, c2, c3, c4, c5⟩ := hinv
            have hjneq : ∀ j ∈ sk2, j ≠ pathId ∧ j ≠ hd.nodeId := by
              intro j hj
              rcases c4 j hj with hj2 | hj2
              · have := hskhd j hj2
                simp [ndIds, hp, not_or] at this
                exact ⟨this.2, this.1⟩
              · constructor <;> omega
            have hwf3 : MemWF (deallocate (deallocate m2 (some pathId)) (some hd.nodeId)) := by
              apply memWF_deallocate_some
              · exact memWF_deallocate_some m2 pathId c2 (by omega)
              · rw [deallocate_ctr]
                omega
            have hids3 : ∀ i ∈ idsOfList tail2,
                i < (deallocate (deallocate m2 (some pathId)) (some hd.nodeId)).ctr := by
              intro i hi
              rw [deallocate_ctr, deallocate_ctr]
              exact c3 i hi
            have hsk3 : ∀ j ∈ sk2,
                j < (deallocate (deallocate m2 (some pathId)) (some hd.nodeId)).ctr ∧
                j ∈ (deallocate (deallocate m2 (some pathId)) (some hd.nodeId)).live ∧
                (some j : Option Nat) ∉
                  (deallocate (deallocate m2 (some pathId)) (some hd.nodeId)).deallocs ∧
                j ∉ idsOfList tail2 := by
              intro j hj
              obtain ⟨d1, d2, d3, d4⟩ := c5 j hj
              obtain ⟨hne1, hne2⟩ := hjneq j hj
              refine ⟨?_, ?_, ?_, d4⟩
              · rw [deallocate_ctr, deallocate_ctr]
                exact d1
              · rw [mem_deallocate_live _ _ _ (by simp [hne2.symm]),
                  mem_deallocate_live _ _ _ (by simp [hne1.symm])]
                exact d2
              · rw [deallocate_deallocs, deallocate_deallocs]
                intro hc
                simp only [List.append_assoc, List.mem_append, List.mem_singleton] at hc
                rcases hc with hc | hc | hc
                · exact d3 hc
                · exact hne1 (Option.some_inj.mp hc)
                · exact hne2 (Option.some_inj.mp hc)
            exact ihf tail2 size2 _ pu2 sk2 out hwf3 hids3 hsk3 hw

/-- C9: on any traversal, the path string allocated by `rcutils_join_path`
for a directory entry that is skipped by the depth test (recorded in the
ghost `skipped` log) is still live when the walker returns and never appears
in the deallocation log: the walker never passes it to the allocator's
`deallocate`, so the traversal's allocate/deallocate calls are not balanced
whenever such a skip occurs. -/
theorem skipped_dir_paths_never_freed (fs : FS) (f : Nat → Bool) (root : String)
    (k fuel : Nat) (m0 : MemState) (out : WalkOut) (hwf : MemWF m0)
    (hw : rcutils_calculate_directory_size_with_recursion fs f root k fuel m0 =
      some out) :
    ∀ j ∈ out.skipped, j ∈ out.mem.live ∧ (some j : Option Nat) ∉ out.mem.deallocs := by
  cases hf0 : f m0.ctr with
  | false =>
    simp only [rcutils_calculate_directory_size_with_recursion,
      allocate_false f m0 hf0] at hw
    have := Option.some_inj.mp hw
    subst this
    simp
  | true =>
    simp only [rcutils_calculate_directory_size_with_recursion,
      allocate_true f m0 hf0] at hw
    cases hf1 : f (m0.ctr + 1) with
    | false =>
      simp only [show rcutils_strdup root f ⟨m0.ctr + 1, m0.ctr :: m0.live, m0.deallocs⟩ =
          (none, ⟨m0.ctr + 1 + 1, m0.ctr :: m0.live, m0.deallocs⟩) from by
        simp [rcutils_strdup, allocate, hf1]] at hw
      have := Option.some_inj.mp hw
      subst this
      simp
    | true =>
      simp only [show rcutils_strdup root f ⟨m0.ctr + 1, m0.ctr :: m0.live, m0.deallocs⟩ =
          (some (m0.ctr + 1, root),
            ⟨m0.ctr + 1 + 1, (m0.ctr + 1) :: m0.ctr :: m0.live, m0.deallocs⟩) from by
        simp [rcutils_strdup, allocate, hf1]] at hw
      apply walk_skipped_inv fs f k fuel
        [⟨m0.ctr, some (m0.ctr + 1, root), 1⟩] 0
        ⟨m0.ctr + 1 + 1, (m0.ctr + 1) :: m0.ctr :: m0.live, m0.deallocs⟩ [] [] out
        ?_ ?_ ?_ hw
      · obtain ⟨h1, h2⟩ := hwf
        constructor
        · intro i hi
          simp only [mk_live, List.mem_cons] at hi
          simp only [mk_ctr]
          rcases hi with hi | hi | hi
          · omega
          · omega
          · have := h1 i hi
            omega
        · intro i hi
          simp only [mk_deallocs] at hi
          simp only [mk_ctr]
          have := h2 i hi
          omega
      · intro i hi
        simp only [idsOfList, ndIds, List.mem_append] at hi
        simp only [mk_ctr]
        rcases hi with hi | hi
        · simp at hi
          rcases hi with hi | hi <;> omega
        · simp [idsOfList] at hi
      · intro j hj
        simp at hj

theorem skipped_dir_paths_never_freed_witness :
    (2 ∈ (⟨3, [2], [some 1, some 0]⟩ : MemState).live) ∧
    (some 2 : Option Nat) ∉ (⟨3, [2], [some 1, some 0]⟩ : MemState).deallocs := by
  have h := skipped_dir_paths_never_freed fsOne allTrue "r" 1 2 initMem
    ⟨0, ⟨3, [2], [some 1, some 0]⟩, [], [2]⟩
    (by refine ⟨fun i hi => ?_, fun i hi => ?_⟩ <;>
      simp [initMem, mk_live, mk_deallocs] at hi)
    (by decide)
  exact h 2 (by decide)
